import Mathlib

/-!  Verification of the agent response stream decoder of the research-agent
repository.  The subject code is `src/frontend/src/components/DataTable.tsx`:
the line buffer and line loop of `sendMessage` (lines 1117-1205) and the
marker / plan / filter logic of `parseContent` (lines 542-692), plus a
spec-modelled streaming tag filter for the backend content filter that is not
part of the sources.  Text is modelled as `List Char`; JavaScript string and
regex operations are translated pointwise. -/

/-- The ASCII part of JS whitespace, as used by `String.prototype.trim` and
the `\s` regex class on the protocol's content. -/
def isJsWs (c : Char) : Bool :=
  c == ' ' || c == '\t' || c == '\n' || c == '\r' || c == '\x0b' || c == '\x0c'

/-- `s.trim()` in JS: strip leading and trailing whitespace. -/
def jsTrim (s : List Char) : List Char :=
  ((s.dropWhile isJsWs).reverse.dropWhile isJsWs).reverse

/-- `!line.trim()` in JS: the line consists of whitespace only. -/
def isBlankL (s : List Char) : Bool := (jsTrim s).isEmpty

/-- `text.split('\n')` in JS: the list of segments between newline characters
(never empty; a trailing newline yields a final empty segment). -/
def splitNl : List Char → List (List Char)
  | [] => [[]]
  | c :: cs =>
    if c = '\n' then [] :: splitNl cs
    else
      match splitNl cs with
      | [] => [[c]]
      | l :: ls => (c :: l) :: ls

/-- Joining the segments back with newlines (the inverse of `splitNl`). -/
def joinNl : List (List Char) → List Char
  | [] => []
  | [l] => l
  | l :: ls => l ++ '\n' :: joinNl ls

/-- `lines.pop() || ""`: the last element of a (never empty) split result. -/
def last1 (ls : List (List Char)) : List Char := ls.getLastD []

/-- Split `s` at the first occurrence of `tok`: the part before the occurrence
and the part after it.  `none` when `tok` does not occur.  This is the
semantics of a lazy regex group followed by the literal `tok`. -/
def splitAtTok (tok : List Char) : List Char → Option (List Char × List Char)
  | [] => none
  | c :: cs =>
    if tok.isPrefixOf (c :: cs) then some ([], (c :: cs).drop tok.length)
    else
      match splitAtTok tok cs with
      | some (a, b) => some (c :: a, b)
      | none => none

/-- ASCII upper-casing, used to mirror the regex `i` flag. -/
def upAscii (c : Char) : Char :=
  if 'a' ≤ c && c ≤ 'z' then Char.ofNat (c.toNat - 32) else c

/-- `pat` (a lower-case pattern literal) matches the beginning of `t` up to
ASCII case, as under the regex `i` flag. -/
def ciPrefixOf : List Char → List Char → Bool
  | [], _ => true
  | _ :: _, [] => false
  | p :: ps, c :: cs => (c == p || c == upAscii p) && ciPrefixOf ps cs

/-- Case-insensitive variant of `splitAtTok`. -/
def splitAtTokCI (tok : List Char) : List Char → Option (List Char × List Char)
  | [] => none
  | c :: cs =>
    if ciPrefixOf tok (c :: cs) then some ([], (c :: cs).drop tok.length)
    else
      match splitAtTokCI tok cs with
      | some (a, b) => some (c :: a, b)
      | none => none

/-- One pass of a global regex replacement: at each position `step` either
consumes a match, yielding replacement text and the rest of the input, or
fails and the scanner copies one character and advances.  `fuel` bounds the
recursion; the input length suffices whenever every match consumes at least
one character. -/
def scanR (step : List Char → Option (List Char × List Char)) :
    Nat → List Char → List Char
  | 0, s => s
  | _ + 1, [] => []
  | n + 1, c :: cs =>
    match step (c :: cs) with
    | some (out, rest) => out ++ scanR step n rest
    | none => c :: scanR step n cs

/-- Run a replacement pass with adequate fuel. -/
def runR (step : List Char → Option (List Char × List Char)) (s : List Char) :
    List Char :=
  scanR step s.length s

/-- One pass of `matchAll`: collect the captures of every match, scanning
left to right. -/
def scanX (step : List Char → Option (List Char × List Char)) :
    Nat → List Char → List (List Char)
  | 0, _ => []
  | _ + 1, [] => []
  | n + 1, c :: cs =>
    match step (c :: cs) with
    | some (cap, rest) => cap :: scanX step n rest
    | none => scanX step n cs

/-- Run an extraction pass with adequate fuel. -/
def runX (step : List Char → Option (List Char × List Char)) (s : List Char) :
    List (List Char) :=
  scanX step s.length s

/-- Match step for an `open (lazy) close` regex rewritten through `mk`:
matches exactly when the open token starts here and the close token occurs
later; the capture is the text strictly between the two tokens. -/
def stepRw (openT closeT : List Char) (mk : List Char → List Char)
    (t : List Char) : Option (List Char × List Char) :=
  if openT.isPrefixOf t then
    match splitAtTok closeT (t.drop openT.length) with
    | some (a, rest) => some (mk a, rest)
    | none => none
  else none

/-- Match step deleting an `open (lazy) close` span. -/
def stepDel (openT closeT : List Char) (t : List Char) :
    Option (List Char × List Char) :=
  stepRw openT closeT (fun _ => []) t

/-- Match step capturing the inner text of an `open (lazy) close` span. -/
def stepCap (openT closeT : List Char) (t : List Char) :
    Option (List Char × List Char) :=
  if openT.isPrefixOf t then splitAtTok closeT (t.drop openT.length) else none

/-- Case-insensitive `stepRw`. -/
def stepRwCI (openT closeT : List Char) (mk : List Char → List Char)
    (t : List Char) : Option (List Char × List Char) :=
  if ciPrefixOf openT t then
    match splitAtTokCI closeT (t.drop openT.length) with
    | some (a, rest) => some (mk a, rest)
    | none => none
  else none

/-- Match step for a literal token replaced by fixed text. -/
def stepLit (tok out : List Char) (t : List Char) :
    Option (List Char × List Char) :=
  if tok.isPrefixOf t then some (out, t.drop tok.length) else none

/-- JavaScript values produced by `JSON.parse`, in first-order form: arrays
and objects are encoded as cons chains inside the same inductive, which keeps
every recursion structural and equality decidable by evaluation.  A number
keeps its source lexeme: the component under verification never consumes a
numeric value, only string fields and truthiness.  JS object identity is
modelled as structural equality (the protocol only puts primitives in sets
and keys). -/
inductive JVal where
  | nullv : JVal
  | boolv : Bool → JVal
  | numv : List Char → JVal
  | strv : List Char → JVal
  | arrNil : JVal
  | arrCons : JVal → JVal → JVal
  | objNil : JVal
  | objCons : List Char → JVal → JVal → JVal
deriving DecidableEq, Repr

/-- JS property access `v[k]` on a parsed value; `none` is `undefined`.  With
duplicate keys `JSON.parse` keeps the last occurrence, hence the search of the
tail first. -/
def getField : JVal → List Char → Option JVal
  | JVal.objCons k' x rest, k =>
    match getField rest k with
    | some r => some r
    | none => if k' = k then some x else none
  | _, _ => none

/-- JS truthiness of a parsed JSON value.  A numeric lexeme is falsy exactly
when it denotes zero, i.e. contains no nonzero digit. -/
def truthy : JVal → Bool
  | JVal.nullv => false
  | JVal.boolv b => b
  | JVal.strv s => !s.isEmpty
  | JVal.numv l => l.any (fun c => '1' ≤ c && c ≤ '9')
  | _ => true

/-- Truthiness of a possibly `undefined` value. -/
def truthyO : Option JVal → Bool
  | some v => truthy v
  | none => false

mutual
/-- JS string coercion (as applied by `+` and template literals) of a parsed
JSON value.  Arrays join their elements with commas; nulls inside arrays
become empty. -/
def jsToString : JVal → List Char
  | JVal.nullv => "null".toList
  | JVal.boolv true => "true".toList
  | JVal.boolv false => "false".toList
  | JVal.numv l => l
  | JVal.strv s => s
  | JVal.arrNil => []
  | JVal.arrCons x rest =>
    (match x with
     | JVal.nullv => []
     | _ => jsToString x) ++ jsArrTail rest
  | JVal.objNil => "[object Object]".toList
  | JVal.objCons _ _ _ => "[object Object]".toList

/-- The tail of an array coercion: a comma before each further element. -/
def jsArrTail : JVal → List Char
  | JVal.arrCons x rest =>
    ',' :: ((match x with
             | JVal.nullv => []
             | _ => jsToString x) ++ jsArrTail rest)
  | _ => []
end

/-- Template-literal coercion of a possibly `undefined` value. -/
def jsToStringU : Option JVal → List Char
  | some v => jsToString v
  | none => "undefined".toList

/-- JSON whitespace accepted between tokens by `JSON.parse`. -/
def isJsonWs (c : Char) : Bool := c == ' ' || c == '\t' || c == '\n' || c == '\r'

/-- Skip JSON whitespace. -/
def skipWs (s : List Char) : List Char := s.dropWhile isJsonWs

/-- Hexadecimal digit value. -/
def hexVal (c : Char) : Option Nat :=
  let n := c.toNat
  if 48 ≤ n ∧ n < 58 then some (n - 48)
  else if 97 ≤ n ∧ n < 103 then some (n - 87)
  else if 65 ≤ n ∧ n < 71 then some (n - 55)
  else none

/-- Decoding of a single-character JSON string escape. -/
def escChar (e : Char) : Option Char :=
  if e = '"' then some '"'
  else if e = '\\' then some '\\'
  else if e = '/' then some '/'
  else if e = 'b' then some '\x08'
  else if e = 'f' then some '\x0c'
  else if e = 'n' then some '\n'
  else if e = 'r' then some '\r'
  else if e = 't' then some '\t'
  else none

/-- Parse the body of a JSON string literal after the opening quote; returns
the decoded characters and the input after the closing quote. -/
def parseStrBody : Nat → List Char → Option (List Char × List Char)
  | 0, _ => none
  | _ + 1, [] => none
  | n + 1, c :: cs =>
    if c = '"' then some ([], cs)
    else if c = '\\' then
      match cs with
      | 'u' :: h1 :: h2 :: h3 :: h4 :: cs' =>
        match hexVal h1, hexVal h2, hexVal h3, hexVal h4 with
        | some a, some b, some c2, some d =>
          (parseStrBody n cs').map fun p =>
            (Char.ofNat (((a * 16 + b) * 16 + c2) * 16 + d) :: p.1, p.2)
        | _, _, _, _ => none
      | e :: cs' =>
        match escChar e with
        | some ch => (parseStrBody n cs').map fun p => (ch :: p.1, p.2)
        | none => none
      | [] => none
    else if c.toNat < 32 then none
    else (parseStrBody n cs).map fun p => (c :: p.1, p.2)

/-- Consume a run of decimal digits. -/
def digitSpan (s : List Char) : List Char × List Char :=
  s.span (fun c => '0' ≤ c && c ≤ '9')

/-- Parse the integer part of a JSON number (no leading zeros). -/
def parseIntPart : List Char → Option (List Char × List Char)
  | c :: r =>
    if c = '0' then some ([c], r)
    else if '1' ≤ c && c ≤ '9' then
      match digitSpan r with
      | (ds, r2) => some (c :: ds, r2)
    else none
  | [] => none

/-- Parse an optional fraction part. -/
def parseFrac : List Char → Option (List Char × List Char)
  | '.' :: r =>
    match digitSpan r with
    | ([], _) => none
    | (ds, r2) => some ('.' :: ds, r2)
  | s => some ([], s)

/-- Parse an optional exponent part. -/
def parseExp : List Char → Option (List Char × List Char)
  | c :: r =>
    if c = 'e' || c = 'E' then
      match (match r with
             | '+' :: r' => (['+'], r')
             | '-' :: r' => (['-'], r')
             | _ => (([] : List Char), r)) with
      | (sgn, r1) =>
        match digitSpan r1 with
        | ([], _) => none
        | (ds, r2) => some (c :: (sgn ++ ds), r2)
    else some ([], c :: r)
  | [] => some ([], [])

/-- Parse a complete JSON number, returning its lexeme. -/
def parseNumFull (s : List Char) : Option (List Char × List Char) :=
  match (match s with
         | '-' :: r => (['-'], r)
         | _ => (([] : List Char), s)) with
  | (neg, s1) =>
    match parseIntPart s1 with
    | none => none
    | some (ip, s2) =>
      match parseFrac s2 with
      | none => none
      | some (fp, s3) =>
        match parseExp s3 with
        | none => none
        | some (ep, s4) => some (neg ++ ip ++ fp ++ ep, s4)

mutual
/-- Recursive-descent core of `JSON.parse`; `fuel` bounds nesting and element
counts and is always run with more fuel than the input length. -/
def parseVal : Nat → List Char → Option (JVal × List Char)
  | 0, _ => none
  | n + 1, s =>
    match skipWs s with
    | [] => none
    | c :: cs =>
      if c = '"' then
        match parseStrBody (cs.length + 1) cs with
        | some (t, rest) => some (JVal.strv t, rest)
        | none => none
      else if c = '\x7b' then
        match skipWs cs with
        | '\x7d' :: r => some (JVal.objNil, r)
        | s2 => parseObjRest n s2
      else if c = '[' then
        match skipWs cs with
        | ']' :: r => some (JVal.arrNil, r)
        | s2 => parseArrRest n s2
      else if ("true".toList).isPrefixOf (c :: cs) then
        some (JVal.boolv true, (c :: cs).drop 4)
      else if ("false".toList).isPrefixOf (c :: cs) then
        some (JVal.boolv false, (c :: cs).drop 5)
      else if ("null".toList).isPrefixOf (c :: cs) then
        some (JVal.nullv, (c :: cs).drop 4)
      else
        match parseNumFull (c :: cs) with
        | some (lex, rest) => some (JVal.numv lex, rest)
        | none => none

/-- Parse `value (, value)* ]` after a non-empty `[`. -/
def parseArrRest : Nat → List Char → Option (JVal × List Char)
  | 0, _ => none
  | n + 1, s =>
    match parseVal n s with
    | none => none
    | some (v, rest) =>
      match skipWs rest with
      | ',' :: r =>
        match parseArrRest n r with
        | some (tail, rest2) => some (JVal.arrCons v tail, rest2)
        | none => none
      | ']' :: r => some (JVal.arrCons v JVal.arrNil, r)
      | _ => none

/-- Parse `"key": value (, "key": value)* }` after a non-empty `{`. -/
def parseObjRest : Nat → List Char → Option (JVal × List Char)
  | 0, _ => none
  | n + 1, s =>
    match skipWs s with
    | '"' :: cs =>
      match parseStrBody (cs.length + 1) cs with
      | some (k, rest) =>
        match skipWs rest with
        | ':' :: r =>
          match parseVal n r with
          | some (v, rest2) =>
            match skipWs rest2 with
            | ',' :: r2 =>
              match parseObjRest n r2 with
              | some (tail, rest3) => some (JVal.objCons k v tail, rest3)
              | none => none
            | '\x7d' :: r2 => some (JVal.objCons k v JVal.objNil, r2)
            | _ => none
          | none => none
        | _ => none
      | none => none
    | _ => none
end

/-- `JSON.parse`: parse a full JSON text; leftover non-whitespace input or any
syntax error is an exception, modelled as `none`. -/
def jsonParse (s : List Char) : Option JVal :=
  match parseVal (s.length + 1) s with
  | some (v, rest) => if (skipWs rest).isEmpty then some v else none
  | none => none

/-- Marker open token of the `PlanInit` regex. -/
def planInitOpen : List Char := "<<<PlanInit:".toList

/-- Marker open token of the `PlanUpdate` regex. -/
def planUpdateOpen : List Char := "<<<PlanUpdate:".toList

/-- Marker open token of the `StepStart` regex. -/
def stepStartOpen : List Char := "<<<StepStart:".toList

/-- Marker open token of the `StepEnd` regex. -/
def stepEndOpen : List Char := "<<<StepEnd:".toList

/-- The close token shared by the four marker regexes. -/
def markerClose : List Char := ">>>".toList

/-- `fullText.matchAll(/<<<X:\s*([\s\S]*?)>>>/g)` reduced to the trimmed
capture of each match: every consumer trims the capture, and trimming the
text between the tokens is the same as trimming after the greedy `\s*`. -/
def markerPayloads (openT : List Char) (s : List Char) : List (List Char) :=
  (runX (stepCap openT markerClose) s).map jsTrim

/-- Open token of the tool-log regex `\*Running tool: ([\s\S]*?)\*`. -/
def toolOpen : List Char := "*Running tool: ".toList

/-- The `toolSteps` extraction of `parseContent`. -/
def toolStepsOf (s : List Char) : List (List Char) :=
  (runX (stepCap toolOpen ("*".toList)) s).map jsTrim

/-- A `ResearchTask` as pushed by `parseContent`: `id` and `label` may be
`undefined`; `status` is whatever JS value ends up in the field. -/
structure RTask where
  id : Option JVal
  label : Option JVal
  status : JVal
deriving DecidableEq, Repr

/-- `typeof t === 'string' ? t : t.description`. -/
def descLabel : JVal → Option JVal
  | JVal.strv s => some (JVal.strv s)
  | t => getField t ("description".toList)

/-- `typeof t === 'string' ? undefined : t.id`. -/
def descId : JVal → Option JVal
  | JVal.strv _ => none
  | t => getField t ("id".toList)

/-- `typeof t === 'string' ? 'pending' : (t.status || 'pending')`. -/
def descStatus : JVal → JVal
  | JVal.strv _ => JVal.strv ("pending".toList)
  | t =>
    match getField t ("status".toList) with
    | some st => if truthy st then st else JVal.strv ("pending".toList)
    | none => JVal.strv ("pending".toList)

/-- The de-duplication key `id || label`. -/
def descKey (t : JVal) : Option JVal :=
  if truthyO (descId t) then descId t else descLabel t

/-- The record pushed for a first-seen descriptor. -/
def mkRecord (t : JVal) : RTask :=
  { id := descId t, label := descLabel t, status := descStatus t }

/-- `parsed.forEach(...)` over one payload's descriptor chain, with JS
exception semantics: a `null` element throws on `t.description`, aborting the
rest of this payload's elements while keeping earlier pushes. -/
def pushDescs : JVal → List RTask × List (Option JVal) → List RTask × List (Option JVal)
  | JVal.arrCons t rest, (tasks, seen) =>
    if t = JVal.nullv then (tasks, seen)
    else if descKey t ∈ seen then pushDescs rest (tasks, seen)
    else pushDescs rest (tasks ++ [mkRecord t], descKey t :: seen)
  | _, acc => acc

/-- Process one `PlanInit`/`PlanUpdate` payload: `JSON.parse`, then the
`forEach` push; a parse failure, or a parsed value without `forEach` (a
non-array), raises and is caught, leaving the accumulator unchanged. -/
def applyPlanPayload (acc : List RTask × List (Option JVal)) (p : List Char) :
    List RTask × List (Option JVal) :=
  match jsonParse p with
  | some v => pushDescs v acc
  | none => acc

/-- Task list and seen-key set after the `PlanInit` pass and then the
`PlanUpdate` pass of `parseContent`. -/
def planFold (s : List Char) : List RTask × List (Option JVal) :=
  (markerPayloads planInitOpen s ++ markerPayloads planUpdateOpen s).foldl
    applyPlanPayload ([], [])

/-- The `planValues` list before the status-update pass. -/
def planRecords (s : List Char) : List RTask := (planFold s).1

/-- One `StepStart` payload: a payload that looks like a JSON object adds its
truthy `id` to the running ids and its truthy `description` to the running
labels; a parse failure or a non-object payload adds the raw trimmed payload
to the running labels. -/
def applyStepStart (acc : List JVal × List JVal) (p : List Char) :
    List JVal × List JVal :=
  if p.head? = some '\x7b' then
    match jsonParse p with
    | some v =>
      ((match getField v ("id".toList) with
        | some i => if truthy i then i :: acc.1 else acc.1
        | none => acc.1),
       (match getField v ("description".toList) with
        | some d => if truthy d then d :: acc.2 else acc.2
        | none => acc.2))
    | none => (acc.1, JVal.strv p :: acc.2)
  else (acc.1, JVal.strv p :: acc.2)

/-- One `StepEnd` payload: only a truthy `id` of an object payload counts;
non-object payloads add the raw trimmed payload to the completed labels. -/
def applyStepEnd (acc : List JVal × List JVal) (p : List Char) :
    List JVal × List JVal :=
  if p.head? = some '\x7b' then
    match jsonParse p with
    | some v =>
      match getField v ("id".toList) with
      | some i => if truthy i then (i :: acc.1, acc.2) else acc
      | none => acc
    | none => (acc.1, JVal.strv p :: acc.2)
  else (acc.1, JVal.strv p :: acc.2)

/-- `(runningIds, runningLabels)` of `parseContent`. -/
def stepStartSets (s : List Char) : List JVal × List JVal :=
  (markerPayloads stepStartOpen s).foldl applyStepStart ([], [])

/-- `(completedIds, completedLabels)` of `parseContent`. -/
def stepEndSets (s : List Char) : List JVal × List JVal :=
  (markerPayloads stepEndOpen s).foldl applyStepEnd ([], [])

/-- Membership of a possibly `undefined` value in a JS `Set` of values. -/
def memSet (x : Option JVal) (set : List JVal) : Bool :=
  match x with
  | some v => set.contains v
  | none => false

/-- The status-update pass: completed-by-id takes precedence over
running-by-id; a task without a truthy id uses the label sets instead. -/
def updStatus (rIds cIds rLbls cLbls : List JVal) (t : RTask) : RTask :=
  if truthyO t.id then
    if memSet t.id cIds then { t with status := JVal.strv ("completed".toList) }
    else if memSet t.id rIds then { t with status := JVal.strv ("running".toList) }
    else t
  else
    if memSet t.label cLbls then { t with status := JVal.strv ("completed".toList) }
    else if memSet t.label rLbls then { t with status := JVal.strv ("running".toList) }
    else t

/-- The `researchTasks` result of `parseContent`. -/
def parsePlan (s : List Char) : List RTask :=
  (planRecords s).map
    (updStatus (stepStartSets s).1 (stepEndSets s).1 (stepStartSets s).2
      (stepEndSets s).2)

/-- Open tag of the `thinking` fallback filter. -/
def thinkOpen : List Char := "<thinking>".toList

/-- Close tag of the `thinking` fallback filter. -/
def thinkClose : List Char := "</thinking>".toList

/-- Open tag of the `private` fallback filter. -/
def privOpen : List Char := "<private>".toList

/-- Close tag of the `private` fallback filter. -/
def privClose : List Char := "</private>".toList

/-- Open tag of the `debug` fallback filter. -/
def dbgOpen : List Char := "<debug>".toList

/-- Close tag of the `debug` fallback filter. -/
def dbgClose : List Char := "</debug>".toList

/-- Open tag of the plain `citation` display rewrite. -/
def citOpen : List Char := "<citation>".toList

/-- Close tag of the `citation` display rewrite. -/
def citClose : List Char := "</citation>".toList

/-- Open tag of the `summary` display rewrite. -/
def sumOpen : List Char := "<summary>".toList

/-- Close tag of the `summary` display rewrite. -/
def sumClose : List Char := "</summary>".toList

/-- Open tag of the plain `source` display rewrite. -/
def srcOpen : List Char := "<source>".toList

/-- Close tag of the `source` display rewrite. -/
def srcClose : List Char := "</source>".toList

/-- Either quote character accepted around the `url` attribute. -/
def isQuote (c : Char) : Bool := c == '"' || c == '\''

/-- After the case-insensitive open tag name: the regex requires at least one
whitespace, then the `url=` literal (case-insensitive); returns the input
after `url=`. -/
def tagUrlAttr (t : List Char) : Option (List Char) :=
  if (t.takeWhile isJsWs).isEmpty then none
  else if ciPrefixOf ("url=".toList) (t.drop (t.takeWhile isJsWs).length) then
    some ((t.drop (t.takeWhile isJsWs).length).drop 4)
  else none

/-- The quoted attribute value `["']([^"']+)["']`: a quote, one or more
non-quote characters (greedy, hence up to the next quote), a quote (either
kind on either side). -/
def quotedVal (t : List Char) : Option (List Char × List Char) :=
  match t with
  | q :: r =>
    if isQuote q then
      if (r.takeWhile fun c => !isQuote c).isEmpty then none
      else
        match r.drop (r.takeWhile fun c => !isQuote c).length with
        | q2 :: r4 => if isQuote q2 then some (r.takeWhile fun c => !isQuote c, r4) else none
        | [] => none
    else none
  | [] => none

/-- `\s*>` after the attribute. -/
def closeAngle (t : List Char) : Option (List Char) :=
  match t.dropWhile isJsWs with
  | c :: r => if c = '>' then some r else none
  | [] => none

/-- Match step of `<TAG\s+url=["']([^"']+)["']\s*>([\s\S]*?)<\/TAG>` with the
`i` flag: the case-insensitive open tag name, the quoted `url` attribute,
optional whitespace, `>`, then the lazy content up to the first
case-insensitive close tag. -/
def stepTagUrl (tag : List Char) (mk : List Char → List Char → List Char)
    (t : List Char) : Option (List Char × List Char) :=
  if ciPrefixOf ('<' :: tag) t then
    match tagUrlAttr (t.drop ('<' :: tag).length) with
    | some r2 =>
      match quotedVal r2 with
      | some (urlv, r4) =>
        match closeAngle r4 with
        | some r6 =>
          match splitAtTokCI ('<' :: '/' :: (tag ++ ['>'])) r6 with
          | some (content, rest) => some (mk urlv content, rest)
          | none => none
        | none => none
      | none => none
    | none => none
  else none

/-- The four characters the source file holds where the sources emoji was
mis-encoded (`ðŸ“„`). -/
def mojibake : List Char := ['ð', 'Ÿ', '“', '„']

/-- Replacement `[$2]($1)` of the citation-url rewrite. -/
def mkCitationUrl (url content : List Char) : List Char :=
  '[' :: (content ++ (']' :: '(' :: (url ++ [')'])))

/-- Replacement of the source-url rewrite. -/
def mkSourceUrl (url content : List Char) : List Char :=
  '\n' :: (mojibake ++ (" **Source**: [".toList ++ (content ++ (']' :: '(' :: (url ++ [')', '\n'])))))

/-- Replacement of the plain source rewrite. -/
def mkSourcePlain (a : List Char) : List Char :=
  '\n' :: (mojibake ++ (" **Source**: ".toList ++ (a ++ ['\n'])))

/-- Whole-line path filter `^\/(?:Users|home|var|tmp)\/[^\n]+$` (flag `m`):
the line starts with one of the four roots and has at least one further
character. -/
def isPathRoot (root l : List Char) : Bool :=
  root.isPrefixOf l && root.length < l.length

/-- A line deleted by the whole-line path filter. -/
def isPathLine (l : List Char) : Bool :=
  isPathRoot ("/Users/".toList) l || isPathRoot ("/home/".toList) l ||
    isPathRoot ("/var/".toList) l || isPathRoot ("/tmp/".toList) l

/-- Apply the whole-line path filter: matched line contents are removed, the
newlines stay. -/
def stripPathLines (s : List Char) : List Char :=
  joinNl ((splitNl s).map fun l => if isPathLine l then [] else l)

/-- The backtick-path regex's root alternatives, with the opening backtick. -/
def backtickRootAt (t : List Char) : Option (List Char) :=
  if ("`/Users/".toList).isPrefixOf t then some (t.drop 8)
  else if ("`/home/".toList).isPrefixOf t then some (t.drop 7)
  else if ("`/var/".toList).isPrefixOf t then some (t.drop 6)
  else if ("`/tmp/".toList).isPrefixOf t then some (t.drop 6)
  else none

/-- Match step of the inline code-span path filter: a backtick, a path root,
at least one non-backtick character, then a backtick. -/
def stepBacktickPath (t : List Char) : Option (List Char × List Char) :=
  match backtickRootAt t with
  | some r =>
    match splitAtTok ['`'] r with
    | some (a, rest) => if a.isEmpty then none else some ([], rest)
    | none => none
  | none => none

/-- Apply the inline code-span path filter. -/
def stripBacktickPaths (s : List Char) : List Char := runR stepBacktickPath s

/-- `\n{3,}` → `\n\n`: keep the first two newlines of each run, tracking in
`k` how many consecutive newlines have just been passed. -/
def collapseGo : Nat → List Char → List Char
  | _, [] => []
  | k, c :: cs =>
    if c = '\n' then
      if k ≥ 2 then collapseGo (k + 1) cs else '\n' :: collapseGo (k + 1) cs
    else c :: collapseGo 0 cs

/-- The newline-collapsing stage. -/
def collapseNl (s : List Char) : List Char := collapseGo 0 s

/-- The `cleanContent` chain of `parseContent` (DataTable.tsx lines 667-689),
stage by stage in source order. -/
def cleanContent (fullText : List Char) : List Char :=
  let s1 := runR (stepDel planInitOpen markerClose) fullText
  let s2 := runR (stepDel planUpdateOpen markerClose) s1
  let s3 := runR (stepDel stepStartOpen markerClose) s2
  let s4 := runR (stepDel stepEndOpen markerClose) s3
  let s5 := runR (stepDel toolOpen ("*".toList)) s4
  let s6 := runR (stepLit ("(no content)".toList) []) s5
  let s7 := runR (stepRwCI thinkOpen thinkClose fun _ => []) s6
  let s8 := runR (stepRwCI privOpen privClose fun _ => []) s7
  let s9 := runR (stepRwCI dbgOpen dbgClose fun _ => []) s8
  let s10 := runR (stepTagUrl ("citation".toList) mkCitationUrl) s9
  let s11 := runR (stepRwCI citOpen citClose fun a => '*' :: (a ++ ['*'])) s10
  let s12 := runR (stepRwCI sumOpen sumClose fun a => '\n' :: '>' :: ' ' :: (a ++ ['\n'])) s11
  let s13 := runR (stepTagUrl ("source".toList) mkSourceUrl) s12
  let s14 := runR (stepRwCI srcOpen srcClose mkSourcePlain) s13
  let s15 := stripPathLines s14
  let s16 := stripBacktickPaths s15
  let s17 := collapseNl s16
  jsTrim s17

/-- `parseContent` of DataTable.tsx: the cleaned text, the research tasks and
the extracted tool log. -/
def parseContent (fullText : List Char) :
    List Char × List RTask × List (List Char) :=
  (cleanContent fullText, parsePlan fullText, toolStepsOf fullText)

/-- An entry of the `activeTools` indicator.  The source also stores an `id`
built from `Date.now()` which nothing reads; it is not modelled. -/
structure ATool where
  name : JVal
  description : JVal
deriving DecidableEq, Repr

/-- The per-turn state owned by the `sendMessage` read loop: the assistant
message content accumulated so far (the loop always appends to the assistant
message it pushed before reading) and the active-tool list. -/
structure StreamState where
  content : List Char
  activeTools : List ATool
deriving DecidableEq, Repr

/-- `data.tool || 'Tool'`. -/
def toolNameOf (v : JVal) : JVal :=
  match getField v ("tool".toList) with
  | some w => if truthy w then w else JVal.strv ("Tool".toList)
  | none => JVal.strv ("Tool".toList)

/-- `data.description || 'Running <toolName>...'` (template literal). -/
def toolDescOf (v : JVal) : JVal :=
  match getField v ("description".toList) with
  | some d =>
    if truthy d then d
    else JVal.strv ("Running ".toList ++ (jsToString (toolNameOf v) ++ "...".toList))
  | none => JVal.strv ("Running ".toList ++ (jsToString (toolNameOf v) ++ "...".toList))

/-- The `setActiveTools` updater on `tool_start`/`tool_usage`: append unless a
tool of the same name is already active (the first entry is kept). -/
def addTool (tools : List ATool) (v : JVal) : List ATool :=
  if tools.any (fun t => t.name == toolNameOf v) then tools
  else tools ++ [{ name := toolNameOf v, description := toolDescOf v }]

/-- One iteration of the `for (const line of lines)` body of `sendMessage`
(DataTable.tsx lines 1127-1187): blank lines are skipped; a `0:` line decodes
its JSON payload, clears the active tools and appends the decoded value when
truthy; a `d:` line decodes a JSON object and dispatches on `type`; a decode
failure (or a property access on `null`) is caught, leaving the state
unchanged; a line matching no prefix is ignored. -/
def processLine (st : StreamState) (line : List Char) : StreamState :=
  if isBlankL line then st
  else if ("0:".toList).isPrefixOf line then
    match jsonParse (line.drop 2) with
    | some v =>
      if truthy v then { content := st.content ++ jsToString v, activeTools := [] }
      else { st with activeTools := [] }
    | none => st
  else if ("d:".toList).isPrefixOf line then
    match jsonParse (line.drop 2) with
    | some v =>
      if getField v ("type".toList) = some (JVal.strv ("tool_start".toList)) ∨
          getField v ("type".toList) = some (JVal.strv ("tool_usage".toList)) then
        { st with activeTools := addTool st.activeTools v }
      else if getField v ("type".toList) = some (JVal.strv ("research_event".toList)) then
        { st with content :=
            st.content ++
              ('\n' :: '\n' :: (jsToStringU (getField v ("raw".toList)) ++ ['\n', '\n'])) }
      else if getField v ("type".toList) = some (JVal.strv ("meta".toList)) then
        { st with activeTools := [] }
      else st
    | none => st
  else st

/-- The line loop over a sequence of completed lines. -/
def processLines (st : StreamState) (lines : List (List Char)) : StreamState :=
  lines.foldl processLine st

/-- The `sendMessage` line buffer (DataTable.tsx lines 1117-1128): the
remainder is prepended to the incoming chunk, the combination is split on
newlines, the last element becomes the new remainder, and the earlier
elements that are not blank are the completed lines, in order. -/
def pushChunk (acc : List (List Char) × List Char) (chunk : List Char) :
    List (List Char) × List Char :=
  (acc.1 ++ ((splitNl (acc.2 ++ chunk)).dropLast.filter fun l => !isBlankL l),
   last1 (splitNl (acc.2 ++ chunk)))

/-- Feed a chunk sequence through the line buffer, starting from the empty
buffer: the completed non-blank lines in order, and the final remainder. -/
def chunkLines (chunks : List (List Char)) : List (List Char) × List Char :=
  chunks.foldl pushChunk ([], [])

/-- The three hidden tag kinds of the specification. -/
inductive HTag where
  | thinkingT : HTag
  | privateT : HTag
  | debugT : HTag
deriving DecidableEq, Repr

/-- Open token of a hidden tag. -/
def openTok : HTag → List Char
  | HTag.thinkingT => "<thinking>".toList
  | HTag.privateT => "<private>".toList
  | HTag.debugT => "<debug>".toList

/-- Close token of a hidden tag. -/
def closeTok : HTag → List Char
  | HTag.thinkingT => "</thinking>".toList
  | HTag.privateT => "</private>".toList
  | HTag.debugT => "</debug>".toList

/-- Modelled from the spec: the hidden-tag open, if any, at the head of the
input, for the backend streaming `TagFilter` (`content_filter.py`, referenced
at DataTable.tsx line 664 but not among the sources). -/
def openHiddenAt (t : List Char) : Option (HTag × List Char) :=
  if (openTok HTag.thinkingT).isPrefixOf t then some (HTag.thinkingT, t.drop 10)
  else if (openTok HTag.privateT).isPrefixOf t then some (HTag.privateT, t.drop 9)
  else if (openTok HTag.debugT).isPrefixOf t then some (HTag.debugT, t.drop 7)
  else none

/-- Modelled from the spec: one step of the hidden-tag scrub of the backend
streaming TagFilter of section 4.3 (content_filter.py, which is not among the
sources), together with its carry state.  Outside a hidden tag text is
copied; at a hidden open tag everything through the matching close tag is
deleted; when no close tag follows, the buffered hidden content is discarded
and the second component reports that the stream ended while still inside an
open hidden tag.  The fuel bounds the recursion; the input length suffices. -/
def scrubGo : Nat → List Char → List Char × Bool
  | 0, _ => ([], false)
  | _ + 1, [] => ([], false)
  | n + 1, c :: cs =>
    match openHiddenAt (c :: cs) with
    | some (t, r) =>
      match splitAtTok (closeTok t) r with
      | some (_, after) => scrubGo n after
      | none => ([], true)
    | none =>
      let p := scrubGo n cs
      (c :: p.1, p.2)

/-- Modelled from the spec: the visible output of the hidden-tag scrub over a
whole turn (chunk boundaries do not affect the result per section 4.3, so the
turn is presented as its concatenation). -/
def hiddenScrub (s : List Char) : List Char := (scrubGo s.length s).1

/-- Modelled from the spec: the section 4.3 carry state at stream end: true
when the stream ends while still inside an open hidden tag. -/
def endsInside (s : List Char) : Bool := (scrubGo s.length s).2

/-- Modelled from the spec: duty 2 of the section 4.3 TagFilter: display tags
are rewritten rather than deleted: a citation tag with a url attribute becomes
a Markdown link, plain citations become emphasis, summaries become quote
lines, and source tags become formatted citation lines (the same rewrites the
frontend keeps as fallbacks). -/
def displayRewrite (s : List Char) : List Char :=
  let d1 := runR (stepTagUrl ("citation".toList) mkCitationUrl) s
  let d2 := runR (stepRwCI citOpen citClose fun a => '*' :: (a ++ ['*'])) d1
  let d3 := runR (stepRwCI sumOpen sumClose fun a => '\n' :: '>' :: ' ' :: (a ++ ['\n'])) d2
  let d4 := runR (stepTagUrl ("source".toList) mkSourceUrl) d3
  runR (stepRwCI srcOpen srcClose mkSourcePlain) d4

/-- Modelled from the spec: duty 3 of the section 4.3 TagFilter: bare local
filesystem paths are deleted wherever they stand as a whole line or inside an
inline code span. -/
def pathScrub (s : List Char) : List Char :=
  stripBacktickPaths (stripPathLines s)

/-- Modelled from the spec: the section 4.3 TagFilter over a whole turn:
hidden-tag spans are deleted with unterminated spans discarded at stream end,
display tags are rewritten, and path-looking tokens are stripped. -/
def tagFilterStream (s : List Char) : List Char :=
  pathScrub (displayRewrite (hiddenScrub s))

/-- Rank of the task lifecycle states: Pending(0) < Running(1) < Completed(2);
any other status value ranks lowest. -/
def statusRank (v : JVal) : Nat :=
  if v = JVal.strv ("completed".toList) then 2
  else if v = JVal.strv ("running".toList) then 1
  else 0

/-- First-occurrence-wins de-duplication by identity key, written after the
words of the spec (§4.4): a descriptor whose key has been seen is ignored;
otherwise it is kept and its key recorded. -/
def dedupF (seen : List (Option JVal)) : List JVal → List JVal
  | [] => []
  | d :: ds =>
    if descKey d ∈ seen then dedupF seen ds
    else d :: dedupF (descKey d :: seen) ds

/-- The seen-key set after a de-duplication pass. -/
def dedupSeen (seen : List (Option JVal)) : List JVal → List (Option JVal)
  | [] => seen
  | d :: ds =>
    if descKey d ∈ seen then dedupSeen seen ds
    else dedupSeen (descKey d :: seen) ds

/-- The descriptor sequence `forEach` actually visits in one payload: the
chain's elements up to (excluding) the first `null`. -/
def descElems : JVal → List JVal
  | JVal.arrCons t rest =>
    if t = JVal.nullv then [] else t :: descElems rest
  | _ => []

/-- The visited descriptors of one payload; a payload that fails to parse,
or is not an array, contributes nothing. -/
def payloadDescs (p : List Char) : List JVal :=
  match jsonParse p with
  | some v => descElems v
  | none => []

/-- The full descriptor stream of a turn: the descriptors of the `PlanInit`
payloads then those of the `PlanUpdate` payloads, in order. -/
def descStream (s : List Char) : List JVal :=
  ((markerPayloads planInitOpen s ++ markerPayloads planUpdateOpen s).map
    payloadDescs).flatten

/-- The identity key of a built record. -/
def recKey (t : RTask) : Option JVal :=
  if truthyO t.id then t.id else t.label

/-- The text contains three consecutive newlines somewhere. -/
def hasNl3 : List Char → Bool
  | c1 :: c2 :: c3 :: cs =>
    (c1 = '\n' && c2 = '\n' && c3 = '\n') || hasNl3 (c2 :: c3 :: cs)
  | _ => false

/-- `l` is a well-formed text line `0:<json string>` decoding to payload `p`. -/
def TextLine (l p : List Char) : Prop :=
  ("0:".toList).isPrefixOf l = true ∧ jsonParse (l.drop 2) = some (JVal.strv p)

/-- The initial per-turn state. -/
def emptyState : StreamState := { content := [], activeTools := [] }


theorem splitAtTok_eq {tok : List Char} :
    ∀ {s a b : List Char}, splitAtTok tok s = some (a, b) → a ++ (tok ++ b) = s := by
  intro s
  induction s with
  | nil => intro a b h; simp [splitAtTok] at h
  | cons c cs ih =>
    intro a b h
    by_cases hp : tok.isPrefixOf (c :: cs)
    · simp only [splitAtTok, if_pos hp] at h
      obtain ⟨ha, hb⟩ := Prod.mk.injEq .. ▸ Option.some.injEq .. ▸ h
      subst ha; subst hb
      simpa using (List.prefix_iff_eq_append.mp (List.isPrefixOf_iff_prefix.mp hp))
    · simp only [splitAtTok, if_neg hp] at h
      cases hs : splitAtTok tok cs with
      | none => rw [hs] at h; simp at h
      | some p =>
        rw [hs] at h
        obtain ⟨a', b'⟩ := p
        simp only [Option.some.injEq, Prod.mk.injEq] at h
        obtain ⟨ha, hb⟩ := h
        subst ha; subst hb
        have := ih hs
        simp [List.cons_append, this]

theorem splitAtTok_length {tok s a b : List Char} (ht : tok ≠ [])
    (h : splitAtTok tok s = some (a, b)) : b.length < s.length := by
  have he := congrArg List.length (splitAtTok_eq h)
  simp only [List.length_append] at he
  have h1 : 1 ≤ tok.length := by
    cases tok with
    | nil => simp at ht
    | cons x xs => simp
  omega

theorem ciPrefixOf_length : ∀ {p t : List Char}, ciPrefixOf p t = true → p.length ≤ t.length := by
  intro p
  induction p with
  | nil => intro t _; simp
  | cons x xs ih =>
    intro t h
    cases t with
    | nil => simp [ciPrefixOf] at h
    | cons c cs =>
      simp only [ciPrefixOf, Bool.and_eq_true] at h
      simpa using Nat.succ_le_succ (ih h.2)

theorem splitAtTokCI_length {tok : List Char} (ht : tok ≠ []) :
    ∀ {s a b : List Char}, splitAtTokCI tok s = some (a, b) → b.length < s.length := by
  intro s
  induction s with
  | nil => intro a b h; simp [splitAtTokCI] at h
  | cons c cs ih =>
    intro a b h
    by_cases hp : ciPrefixOf tok (c :: cs) = true
    · simp only [splitAtTokCI, if_pos hp] at h
      obtain ⟨ha, hb⟩ := Prod.mk.injEq .. ▸ Option.some.injEq .. ▸ h
      subst hb
      have h1 : 1 ≤ tok.length := by
        cases tok with
        | nil => simp at ht
        | cons x xs => simp
      simp only [List.length_drop, List.length_cons]
      omega
    · simp only [splitAtTokCI, if_neg hp] at h
      cases hs : splitAtTokCI tok cs with
      | none => rw [hs] at h; simp at h
      | some p =>
        rw [hs] at h
        obtain ⟨a', b'⟩ := p
        simp only [Option.some.injEq, Prod.mk.injEq] at h
        obtain ⟨ha, hb⟩ := h
        subst hb
        have := ih hs
        simp only [List.length_cons]
        omega

/-- The property that a match step always consumes at least one character. -/
def StepShrinks (step : List Char → Option (List Char × List Char)) : Prop :=
  ∀ t out rest, step t = some (out, rest) → rest.length < t.length

theorem scanR_fuel {step : List Char → Option (List Char × List Char)}
    (hs : StepShrinks step) :
    ∀ (k : Nat) (s : List Char) (n m : Nat), s.length ≤ k → s.length ≤ n →
      s.length ≤ m → scanR step n s = scanR step m s := by
  intro k
  induction k with
  | zero =>
    intro s n m hk _ _
    have hnil : s = [] := List.length_eq_zero.mp (Nat.le_zero.mp hk)
    subst hnil
    cases n <;> cases m <;> simp [scanR]
  | succ k ih =>
    intro s n m hk hn hm
    cases s with
    | nil => cases n <;> cases m <;> simp [scanR]
    | cons c cs =>
      simp only [List.length_cons] at hk hn hm
      cases n with
      | zero => omega
      | succ n' =>
        cases m with
        | zero => omega
        | succ m' =>
          cases hstep : step (c :: cs) with
          | none =>
            simp only [scanR, hstep]
            rw [ih cs n' m' (by omega) (by omega) (by omega)]
          | some p =>
            obtain ⟨out, rest⟩ := p
            have hr := hs _ _ _ hstep
            simp only [List.length_cons] at hr
            simp only [scanR, hstep]
            rw [ih rest n' m' (by omega) (by omega) (by omega)]

theorem runR_nil {step : List Char → Option (List Char × List Char)} :
    runR step [] = [] := rfl

theorem runR_cons_none {step : List Char → Option (List Char × List Char)}
    {c : Char} {cs : List Char} (h : step (c :: cs) = none) :
    runR step (c :: cs) = c :: runR step cs := by
  simp [runR, scanR, h]

theorem runR_cons_some {step : List Char → Option (List Char × List Char)}
    (hs : StepShrinks step) {c : Char} {cs out rest : List Char}
    (h : step (c :: cs) = some (out, rest)) :
    runR step (c :: cs) = out ++ runR step rest := by
  have hr := hs _ _ _ h
  simp only [List.length_cons] at hr
  simp only [runR, List.length_cons, scanR, h]
  congr 1
  exact scanR_fuel hs cs.length rest cs.length rest.length (by omega) (by omega)
    (le_refl _)

theorem scanX_fuel {step : List Char → Option (List Char × List Char)}
    (hs : StepShrinks step) :
    ∀ (k : Nat) (s : List Char) (n m : Nat), s.length ≤ k → s.length ≤ n →
      s.length ≤ m → scanX step n s = scanX step m s := by
  intro k
  induction k with
  | zero =>
    intro s n m hk _ _
    have hnil : s = [] := List.length_eq_zero.mp (Nat.le_zero.mp hk)
    subst hnil
    cases n <;> cases m <;> simp [scanX]
  | succ k ih =>
    intro s n m hk hn hm
    cases s with
    | nil => cases n <;> cases m <;> simp [scanX]
    | cons c cs =>
      simp only [List.length_cons] at hk hn hm
      cases n with
      | zero => omega
      | succ n' =>
        cases m with
        | zero => omega
        | succ m' =>
          cases hstep : step (c :: cs) with
          | none =>
            simp only [scanX, hstep]
            rw [ih cs n' m' (by omega) (by omega) (by omega)]
          | some p =>
            obtain ⟨cap, rest⟩ := p
            have hr := hs _ _ _ hstep
            simp only [List.length_cons] at hr
            simp only [scanX, hstep]
            rw [ih rest n' m' (by omega) (by omega) (by omega)]

theorem runX_nil {step : List Char → Option (List Char × List Char)} :
    runX step [] = [] := rfl

theorem runX_cons_none {step : List Char → Option (List Char × List Char)}
    {c : Char} {cs : List Char} (h : step (c :: cs) = none) :
    runX step (c :: cs) = runX step cs := by
  simp [runX, scanX, h]

theorem runX_cons_some {step : List Char → Option (List Char × List Char)}
    (hs : StepShrinks step) {c : Char} {cs cap rest : List Char}
    (h : step (c :: cs) = some (cap, rest)) :
    runX step (c :: cs) = cap :: runX step rest := by
  have hr := hs _ _ _ h
  simp only [List.length_cons] at hr
  simp only [runX, List.length_cons, scanX, h]
  congr 1
  exact scanX_fuel hs cs.length rest cs.length rest.length (by omega) (by omega)
    (le_refl _)

theorem runR_id_of_none {step : List Char → Option (List Char × List Char)} :
    ∀ {s : List Char}, (∀ c cs, (c :: cs) <:+ s → step (c :: cs) = none) →
      runR step s = s := by
  intro s
  induction s with
  | nil => intro _; rfl
  | cons c cs ih =>
    intro h
    rw [runR_cons_none (h c cs (List.suffix_refl _))]
    rw [ih fun c' cs' hsuf => h c' cs' (hsuf.trans (List.suffix_cons c cs))]

theorem runX_nil_of_none {step : List Char → Option (List Char × List Char)} :
    ∀ {s : List Char}, (∀ c cs, (c :: cs) <:+ s → step (c :: cs) = none) →
      runX step s = [] := by
  intro s
  induction s with
  | nil => intro _; rfl
  | cons c cs ih =>
    intro h
    rw [runX_cons_none (h c cs (List.suffix_refl _))]
    exact ih fun c' cs' hsuf => h c' cs' (hsuf.trans (List.suffix_cons c cs))

theorem stepRw_shrinks {openT closeT : List Char} {mk : List Char → List Char}
    (hc : closeT ≠ []) : StepShrinks (stepRw openT closeT mk) := by
  intro t out rest h
  simp only [stepRw] at h
  by_cases hp : openT.isPrefixOf t
  · rw [if_pos hp] at h
    cases hs : splitAtTok closeT (t.drop openT.length) with
    | none => rw [hs] at h; simp at h
    | some p =>
      obtain ⟨a, b⟩ := p
      rw [hs] at h
      simp only [Option.some.injEq, Prod.mk.injEq] at h
      obtain ⟨_, hb⟩ := h
      subst hb
      have h1 := splitAtTok_length hc hs
      have h2 := List.length_drop openT.length t
      omega
  · rw [if_neg hp] at h; simp at h

theorem stepCap_shrinks {openT closeT : List Char} (hc : closeT ≠ []) :
    StepShrinks (stepCap openT closeT) := by
  intro t out rest h
  simp only [stepCap] at h
  by_cases hp : openT.isPrefixOf t
  · rw [if_pos hp] at h
    have h1 := splitAtTok_length hc h
    have h2 := List.length_drop openT.length t
    omega
  · rw [if_neg hp] at h; simp at h

theorem stepRwCI_shrinks {openT closeT : List Char} {mk : List Char → List Char}
    (hc : closeT ≠ []) : StepShrinks (stepRwCI openT closeT mk) := by
  intro t out rest h
  simp only [stepRwCI] at h
  by_cases hp : ciPrefixOf openT t = true
  · rw [if_pos hp] at h
    cases hs : splitAtTokCI closeT (t.drop openT.length) with
    | none => rw [hs] at h; simp at h
    | some p =>
      obtain ⟨a, b⟩ := p
      rw [hs] at h
      simp only [Option.some.injEq, Prod.mk.injEq] at h
      obtain ⟨_, hb⟩ := h
      subst hb
      have h1 := splitAtTokCI_length hc hs
      have h2 := List.length_drop openT.length t
      omega
  · rw [if_neg hp] at h; simp at h

theorem stepLit_shrinks {tok out : List Char} (ht : tok ≠ []) :
    StepShrinks (stepLit tok out) := by
  intro t o rest h
  simp only [stepLit] at h
  by_cases hp : tok.isPrefixOf t
  · rw [if_pos hp] at h
    simp only [Option.some.injEq, Prod.mk.injEq] at h
    obtain ⟨_, hb⟩ := h
    subst hb
    have h1 : tok.length ≤ t.length :=
      (List.isPrefixOf_iff_prefix.mp hp).length_le
    have h2 : 1 ≤ tok.length := by
      cases tok with
      | nil => simp at ht
      | cons x xs => simp
    have h3 := List.length_drop tok.length t
    omega
  · rw [if_neg hp] at h; simp at h

theorem backtickRootAt_length {t r : List Char} (h : backtickRootAt t = some r) :
    r.length ≤ t.length := by
  simp only [backtickRootAt] at h
  split at h
  · cases h; simp [List.length_drop]
  · split at h
    · cases h; simp [List.length_drop]
    · split at h
      · cases h; simp [List.length_drop]
      · split at h
        · cases h; simp [List.length_drop]
        · simp at h

theorem stepBacktickPath_shrinks : StepShrinks stepBacktickPath := by
  intro t out rest h
  cases hr : backtickRootAt t with
  | none => simp [stepBacktickPath, hr] at h
  | some r =>
    cases hs : splitAtTok ['`'] r with
    | none => simp [stepBacktickPath, hr, hs] at h
    | some p =>
      obtain ⟨a, b⟩ := p
      by_cases ha : a.isEmpty
      · simp [stepBacktickPath, hr, hs, ha] at h
      · simp only [stepBacktickPath, hr, hs, ha, Bool.false_eq_true, if_false,
          Option.some.injEq, Prod.mk.injEq] at h
        obtain ⟨_, hb⟩ := h
        subst hb
        have h1 : b.length < r.length := splitAtTok_length (by simp) hs
        have h2 := backtickRootAt_length hr
        omega

theorem tagUrlAttr_length {t r : List Char} (h : tagUrlAttr t = some r) :
    r.length < t.length := by
  simp only [tagUrlAttr] at h
  split at h
  · simp at h
  · rename_i hw
    split at h
    · cases h
      have h0 : ¬(t.takeWhile isJsWs).length = 0 := by
        simpa [List.isEmpty_iff, List.length_eq_zero] using hw
      have h1 : (t.takeWhile isJsWs).length ≤ t.length :=
        (List.takeWhile_sublist _).length_le
      simp only [List.length_drop]
      omega
    · simp at h

theorem quotedVal_length {t v r : List Char} (h : quotedVal t = some (v, r)) :
    r.length < t.length := by
  cases t with
  | nil => simp [quotedVal] at h
  | cons q rr =>
    simp only [quotedVal] at h
    split at h
    · split at h
      · simp at h
      · cases hq2 : rr.drop (rr.takeWhile fun c => !isQuote c).length with
        | nil => simp [hq2] at h
        | cons q2 r4 =>
          simp only [hq2] at h
          split at h
          · simp only [Option.some.injEq, Prod.mk.injEq] at h
            obtain ⟨_, hb⟩ := h
            subst hb
            have h1 := congrArg List.length hq2
            have h2 := List.length_drop (rr.takeWhile fun c => !isQuote c).length rr
            simp only [List.length_cons] at h1
            simp only [List.length_cons]
            omega
          · simp at h
    · simp at h

theorem closeAngle_length {t r : List Char} (h : closeAngle t = some r) :
    r.length < t.length := by
  simp only [closeAngle] at h
  cases hd : t.dropWhile isJsWs with
  | nil => simp [hd] at h
  | cons c rr =>
    simp only [hd] at h
    split at h
    · cases h
      have h1 := congrArg List.length hd
      have h2 : (t.dropWhile isJsWs).length ≤ t.length :=
        (List.dropWhile_sublist _).length_le
      simp only [List.length_cons] at h1
      omega
    · simp at h

theorem stepTagUrl_shrinks {tag : List Char} {mk : List Char → List Char → List Char} :
    StepShrinks (stepTagUrl tag mk) := by
  intro t out rest h
  by_cases hp : ciPrefixOf ('<' :: tag) t = true
  · rw [stepTagUrl, if_pos hp] at h
    simp only [List.length_cons] at h
    cases hA : tagUrlAttr (t.drop (tag.length + 1)) with
    | none => simp [hA] at h
    | some r2 =>
      simp only [hA] at h
      cases hQ : quotedVal r2 with
      | none => simp [hQ] at h
      | some p =>
        obtain ⟨urlv, r4⟩ := p
        simp only [hQ] at h
        cases hC : closeAngle r4 with
        | none => simp [hC] at h
        | some r6 =>
          simp only [hC] at h
          cases hS : splitAtTokCI ('<' :: '/' :: (tag ++ ['>'])) r6 with
          | none => simp [hS] at h
          | some p2 =>
            obtain ⟨content, rest2⟩ := p2
            simp only [hS, Option.some.injEq, Prod.mk.injEq] at h
            obtain ⟨_, hb⟩ := h
            subst hb
            have l1 := splitAtTokCI_length (by simp) hS
            have l2 := closeAngle_length hC
            have l3 := quotedVal_length hQ
            have l4 := tagUrlAttr_length hA
            have l5 := List.length_drop (tag.length + 1) t
            omega
  · rw [stepTagUrl, if_neg hp] at h; simp at h

theorem isPrefixOf_head {x : Char} {xs l : List Char}
    (h : (x :: xs).isPrefixOf l = true) : ∃ t, l = x :: t := by
  cases l with
  | nil => simp [List.isPrefixOf] at h
  | cons c cs =>
    simp only [List.isPrefixOf, Bool.and_eq_true, beq_iff_eq] at h
    exact ⟨cs, by rw [h.1]⟩

theorem isPrefixOf_false_head {x c : Char} {xs cs : List Char} (h : c ≠ x) :
    (x :: xs).isPrefixOf (c :: cs) = false := by
  have hb : (x == c) = false := beq_eq_false_iff_ne.mpr fun he => h he.symm
  simp [List.isPrefixOf, hb]

theorem ciPrefixOf_false_head {x c : Char} {xs cs : List Char} (h1 : c ≠ x)
    (h2 : c ≠ upAscii x) : ciPrefixOf (x :: xs) (c :: cs) = false := by
  have e1 : (c == x) = false := beq_eq_false_iff_ne.mpr h1
  have e2 : (c == upAscii x) = false := beq_eq_false_iff_ne.mpr h2
  simp [ciPrefixOf, e1, e2]

theorem isBlankL_iff {l : List Char} :
    isBlankL l = true ↔ ∀ c ∈ l, isJsWs c = true := by
  simp only [isBlankL, jsTrim, List.isEmpty_iff, List.reverse_eq_nil_iff,
    List.dropWhile_eq_nil_iff, List.mem_reverse]
  constructor
  · intro h c hc
    have hsplit : c ∈ l.takeWhile isJsWs ++ l.dropWhile isJsWs := by
      rw [List.takeWhile_append_dropWhile]; exact hc
    rcases List.mem_append.mp hsplit with h1 | h2
    · exact List.mem_takeWhile_imp h1
    · exact h c h2
  · intro h c hc
    exact h c ((List.dropWhile_sublist _).subset hc)

theorem isBlankL_false_of_mem {l : List Char} {c : Char} (hc : c ∈ l)
    (h : isJsWs c = false) : isBlankL l = false := by
  rw [Bool.eq_false_iff]
  intro hb
  have := isBlankL_iff.mp hb c hc
  rw [h] at this
  exact Bool.false_ne_true this

/-- Claim C10 (amended): a line carrying the legacy `data:` prefix is not
consumed by the frontend line loop at all: it matches neither the `0:` nor
the `d:` prefix and is dropped with no effect on the accumulated text, the
plan state, or the active-tool state.  The `data:`-to-`d:` equivalence of the
spec holds only in adapters outside the frontend sources. -/
theorem dataPrefixIgnored (st : StreamState) (rest : List Char) :
    processLine st (("data:".toList) ++ rest) = st := by
  have hline : ("data:".toList) ++ rest = 'd' :: 'a' :: 't' :: 'a' :: ':' :: rest := rfl
  rw [hline]
  have hb : isBlankL ('d' :: 'a' :: 't' :: 'a' :: ':' :: rest) = false :=
    isBlankL_false_of_mem (List.mem_cons_self _ _) (by decide)
  have h0 : ("0:".toList).isPrefixOf ('d' :: 'a' :: 't' :: 'a' :: ':' :: rest) = false := by
    have : "0:".toList = '0' :: [':'] := rfl
    rw [this]
    exact isPrefixOf_false_head (by decide)
  have hd : ("d:".toList).isPrefixOf ('d' :: 'a' :: 't' :: 'a' :: ':' :: rest) = false := by
    have : "d:".toList = 'd' :: [':'] := rfl
    rw [this]
    have : ([':'] : List Char).isPrefixOf ('a' :: 't' :: 'a' :: ':' :: rest) = false :=
      isPrefixOf_false_head (by decide)
    simp [List.isPrefixOf, this]
  simp [processLine, hb, h0, hd]

/-- Claim C10 (counterexample): with one active tool, a `d:` meta line clears
the active-tool list while the same line under the legacy `data:` prefix
leaves it untouched, so the two prefixes are not treated equivalently by the
frontend loop. -/
theorem dataPrefixNotEquivalentCex :
    processLine
        { content := ['x'],
          activeTools := [{ name := JVal.strv ("search".toList),
                            description := JVal.strv ("d".toList) }] }
        (("data:\x7b\"type\":\"meta\"\x7d".toList)) ≠
      processLine
        { content := ['x'],
          activeTools := [{ name := JVal.strv ("search".toList),
                            description := JVal.strv ("d".toList) }] }
        (("d:\x7b\"type\":\"meta\"\x7d".toList)) := by decide

/-- Claim C4: every decode failure is local: a line whose payload is not
valid JSON leaves the loop state unchanged (the exception is caught and the
fold continues), and a malformed `d:` line between two valid `0:` lines
leaves the accumulated text exactly as without it. -/
theorem decodeFailureLocal :
    (∀ (st : StreamState) (l : List Char), jsonParse (l.drop 2) = none →
        processLine st l = st) ∧
    (∀ (st : StreamState) (la lb lbad pa pb : List Char), TextLine la pa →
        TextLine lb pb → ("d:".toList).isPrefixOf lbad = true →
        jsonParse (lbad.drop 2) = none →
        processLines st [la, lbad, lb] = processLines st [la, lb]) := by
  constructor
  · intro st l h
    simp [processLine, h]
  · intro st la lb lbad pa pb _ _ _ hbad
    show processLine (processLine (processLine st la) lbad) lb =
      processLine (processLine st la) lb
    rw [show processLine (processLine st la) lbad = processLine st la by
      simp [processLine, hbad]]

/-- Claim C4 witness: a concrete malformed `d:` line between two valid text
lines. -/
theorem decodeFailureLocalWitness :
    processLines emptyState
        [("0:\"a\"".toList), ("d:\x7bbad".toList), ("0:\"b\"".toList)] =
      processLines emptyState [("0:\"a\"".toList), ("0:\"b\"".toList)] :=
  decodeFailureLocal.2 emptyState _ _ _ ("a".toList) ("b".toList)
    ⟨by decide, by decide⟩ ⟨by decide, by decide⟩ (by decide) (by decide)

/-- Claim C3 (counterexample): the split hidden-tag scenario `0:"<thi"` then
`0:"nking>secret</thinking> visible"` does not produce the clean output
`" visible"` claimed by the spec (the filter's final trim removes the leading
space). -/
theorem hiddenSplitScenarioCex :
    cleanContent (processLines emptyState
        [("0:\"<thi\"".toList),
         ("0:\"nking>secret</thinking> visible\"".toList)]).content ≠
      " visible".toList := by decide

/-- Claim C5 (counterexample): a task declared with an explicit status
`completed` in its `PlanInit` descriptor moves back to `running` when a
`StepStart` for its id arrives, so the status sequence of a task is not
non-decreasing and a `StepStart` for a `Completed` task is not always
ignored. -/
theorem statusRegressionCex :
    (parsePlan
          ("<<<PlanInit: [\x7b\"id\":\"t1\",\"description\":\"d\",\"status\":\"completed\"\x7d]>>>".toList)).map
        RTask.status = [JVal.strv ("completed".toList)] ∧
      (parsePlan
            (("<<<PlanInit: [\x7b\"id\":\"t1\",\"description\":\"d\",\"status\":\"completed\"\x7d]>>>".toList) ++
              ("<<<StepStart: \x7b\"id\":\"t1\"\x7d>>>".toList))).map
          RTask.status = [JVal.strv ("running".toList)] :=
  ⟨by decide, by decide⟩

/-- Claim C7 (counterexample): a `StepStart` whose id `x` matches no declared
task is not a no-op: its `description` also enters the running-label pool and
sets the id-less task `foo` to `running`, while the claim predicts resolution
by id only and hence no change. -/
theorem stepResolutionCex :
    (parsePlan
          (("<<<PlanInit: [\x7b\"description\":\"foo\"\x7d]>>>".toList) ++
            ("<<<StepStart: \x7b\"id\":\"x\",\"description\":\"foo\"\x7d>>>".toList))).map
        RTask.status = [JVal.strv ("running".toList)] ∧
      (parsePlan ("<<<PlanInit: [\x7b\"description\":\"foo\"\x7d]>>>".toList)).map
          RTask.status = [JVal.strv ("pending".toList)] :=
  ⟨by decide, by decide⟩

/-- Claim C8 (counterexample): the filter is not idempotent: deleting an
inner `thinking` span can assemble a new `thinking` span from the surrounding
fragments, which only a second pass removes. -/
theorem filterNotIdempotentCex :
    cleanContent (cleanContent ("<thin<thinking>x</thinking>king>y</thinking>".toList)) ≠
      cleanContent ("<thin<thinking>x</thinking>king>y</thinking>".toList) := by decide

theorem isPrefixOf_pair {x y : Char} {l : List Char}
    (h : ([x, y]).isPrefixOf l = true) : ∃ t, l = x :: y :: t := by
  cases l with
  | nil => simp [List.isPrefixOf] at h
  | cons a l1 =>
    cases l1 with
    | nil => simp [List.isPrefixOf] at h
    | cons b l2 =>
      simp only [List.isPrefixOf, Bool.and_eq_true, beq_iff_eq] at h
      exact ⟨l2, by rw [h.1, h.2.1]⟩

theorem processLine_text_eq (st : StreamState) (t : List Char) :
    processLine st ('0' :: ':' :: t) =
      match jsonParse t with
      | some v =>
        if truthy v then { content := st.content ++ jsToString v, activeTools := [] }
        else { st with activeTools := [] }
      | none => st := by
  have hb : isBlankL ('0' :: ':' :: t) = false :=
    isBlankL_false_of_mem (List.mem_cons_self _ _) (by decide)
  have h0 : ("0:".toList).isPrefixOf ('0' :: ':' :: t) = true := by
    simp [List.isPrefixOf]
  simp [processLine, hb, h0]

theorem processLine_d_eq (st : StreamState) (t : List Char) :
    processLine st ('d' :: ':' :: t) =
      match jsonParse t with
      | some v =>
        if getField v ("type".toList) = some (JVal.strv ("tool_start".toList)) ∨
            getField v ("type".toList) = some (JVal.strv ("tool_usage".toList)) then
          { st with activeTools := addTool st.activeTools v }
        else if getField v ("type".toList) = some (JVal.strv ("research_event".toList)) then
          { st with content :=
              st.content ++
                ('\n' :: '\n' :: (jsToStringU (getField v ("raw".toList)) ++ ['\n', '\n'])) }
        else if getField v ("type".toList) = some (JVal.strv ("meta".toList)) then
          { st with activeTools := [] }
        else st
      | none => st := by
  have hb : isBlankL ('d' :: ':' :: t) = false :=
    isBlankL_false_of_mem (List.mem_cons_self _ _) (by decide)
  have h0 : ("0:".toList).isPrefixOf ('d' :: ':' :: t) = false := by
    have he : "0:".toList = '0' :: [':'] := rfl
    rw [he]
    exact isPrefixOf_false_head (by decide)
  have hd : ("d:".toList).isPrefixOf ('d' :: ':' :: t) = true := by
    simp [List.isPrefixOf]
  simp [processLine, hb, h0, hd]

theorem processLine_text_some {t : List Char} {v : JVal} (st : StreamState)
    (hp : jsonParse t = some v) :
    processLine st ('0' :: ':' :: t) =
      if truthy v then { content := st.content ++ jsToString v, activeTools := [] }
      else { st with activeTools := [] } := by
  rw [processLine_text_eq, hp]

theorem processLine_d_some {t : List Char} {v : JVal} (st : StreamState)
    (hp : jsonParse t = some v) :
    processLine st ('d' :: ':' :: t) =
      if getField v ("type".toList) = some (JVal.strv ("tool_start".toList)) ∨
          getField v ("type".toList) = some (JVal.strv ("tool_usage".toList)) then
        { st with activeTools := addTool st.activeTools v }
      else if getField v ("type".toList) = some (JVal.strv ("research_event".toList)) then
        { st with content :=
            st.content ++
              ('\n' :: '\n' :: (jsToStringU (getField v ("raw".toList)) ++ ['\n', '\n'])) }
      else if getField v ("type".toList) = some (JVal.strv ("meta".toList)) then
        { st with activeTools := [] }
      else st := by
  rw [processLine_d_eq, hp]

/-- Claim C9: a decoded `0:` text line or a `d:` meta event clears the whole
active-tool list; a `tool_start` (or its `tool_usage` alias) event updates the
list through `addTool`, which appends unless a tool of the same name is
already active, keeping the first entry. -/
theorem toolTrackerBehavior :
    (∀ (st : StreamState) (l : List Char) (v : JVal),
        ("0:".toList).isPrefixOf l = true → jsonParse (l.drop 2) = some v →
        (processLine st l).activeTools = []) ∧
    (∀ (st : StreamState) (l : List Char) (v : JVal),
        ("d:".toList).isPrefixOf l = true → jsonParse (l.drop 2) = some v →
        getField v ("type".toList) = some (JVal.strv ("meta".toList)) →
        (processLine st l).activeTools = []) ∧
    (∀ (st : StreamState) (l : List Char) (v : JVal),
        ("d:".toList).isPrefixOf l = true → jsonParse (l.drop 2) = some v →
        (getField v ("type".toList) = some (JVal.strv ("tool_start".toList)) ∨
          getField v ("type".toList) = some (JVal.strv ("tool_usage".toList))) →
        (processLine st l).activeTools = addTool st.activeTools v) ∧
    (∀ (tools : List ATool) (v : JVal),
        (tools.any (fun t => t.name == toolNameOf v) = true → addTool tools v = tools) ∧
        (tools.any (fun t => t.name == toolNameOf v) = false → addTool tools v =
          tools ++ [{ name := toolNameOf v, description := toolDescOf v }])) := by
  refine ⟨?_, ?_, ?_, ?_⟩
  · intro st l v h0 hp
    have h0' : (['0', ':']).isPrefixOf l = true := by
      have he : "0:".toList = ['0', ':'] := rfl
      rw [he] at h0; exact h0
    obtain ⟨t, ht⟩ := isPrefixOf_pair h0'
    subst ht
    have hp' : jsonParse t = some v := hp
    rw [processLine_text_some st hp']
    by_cases htr : truthy v = true <;> simp [htr]
  · intro st l v hd hp hty
    have hd' : (['d', ':']).isPrefixOf l = true := by
      have he : "d:".toList = ['d', ':'] := rfl
      rw [he] at hd; exact hd
    obtain ⟨t, ht⟩ := isPrefixOf_pair hd'
    subst ht
    have hp' : jsonParse t = some v := hp
    have hne1 : getField v ("type".toList) ≠ some (JVal.strv ("tool_start".toList)) := by
      rw [hty]; decide
    have hne2 : getField v ("type".toList) ≠ some (JVal.strv ("tool_usage".toList)) := by
      rw [hty]; decide
    have hne3 : getField v ("type".toList) ≠ some (JVal.strv ("research_event".toList)) := by
      rw [hty]; decide
    rw [processLine_d_some st hp']
    rw [if_neg (not_or.mpr ⟨hne1, hne2⟩), if_neg hne3, if_pos hty]
  · intro st l v hd hp hty
    have hd' : (['d', ':']).isPrefixOf l = true := by
      have he : "d:".toList = ['d', ':'] := rfl
      rw [he] at hd; exact hd
    obtain ⟨t, ht⟩ := isPrefixOf_pair hd'
    subst ht
    have hp' : jsonParse t = some v := hp
    rw [processLine_d_some st hp']
    rcases hty with hty | hty
    · rw [if_pos (Or.inl hty)]
    · rw [if_pos (Or.inr hty)]
  · intro tools v
    constructor <;> intro h <;> simp [addTool, h]

/-- Claim C9 witness: concrete instances of the three clearing/appending
behaviors. -/
theorem toolTrackerBehaviorWitness :
    (processLine
          { content := ['x'],
            activeTools := [{ name := JVal.strv ("search".toList),
                              description := JVal.strv ("d".toList) }] }
          ("0:\"hi\"".toList)).activeTools = [] ∧
      (processLine
            { content := ['x'],
              activeTools := [{ name := JVal.strv ("search".toList),
                                description := JVal.strv ("d".toList) }] }
            ("d:\x7b\"type\":\"meta\"\x7d".toList)).activeTools = [] ∧
      (processLine emptyState
            ("d:\x7b\"type\":\"tool_start\",\"tool\":\"search\"\x7d".toList)).activeTools =
        addTool emptyState.activeTools
          (JVal.objCons ("type".toList) (JVal.strv ("tool_start".toList))
            (JVal.objCons ("tool".toList) (JVal.strv ("search".toList)) JVal.objNil)) := by
  refine ⟨?_, ?_, ?_⟩
  · exact toolTrackerBehavior.1 _ _ (JVal.strv ("hi".toList)) (by decide) (by decide)
  · exact toolTrackerBehavior.2.1 _ _
      (JVal.objCons ("type".toList) (JVal.strv ("meta".toList)) JVal.objNil)
      (by decide) (by decide) (by decide)
  · exact toolTrackerBehavior.2.2.1 _ _ _ (by decide) (by decide) (Or.inl (by decide))

theorem processLine_text_content {l p : List Char} (st : StreamState)
    (h : TextLine l p) : (processLine st l).content = st.content ++ p := by
  obtain ⟨h0, hp⟩ := h
  have h0' : (['0', ':']).isPrefixOf l = true := by
    have he : "0:".toList = ['0', ':'] := rfl
    rw [he] at h0; exact h0
  obtain ⟨t, ht⟩ := isPrefixOf_pair h0'
  subst ht
  have hp' : jsonParse t = some (JVal.strv p) := hp
  rw [processLine_text_some st hp']
  cases p with
  | nil => simp [truthy]
  | cons c cs => simp [truthy, jsToString]

theorem processLines_text_content :
    ∀ {ls ps : List (List Char)}, List.Forall₂ TextLine ls ps →
      ∀ (st : StreamState), (processLines st ls).content = st.content ++ ps.flatten := by
  intro ls ps h
  induction h with
  | nil => intro st; simp [processLines]
  | @cons l p ls' ps' hlp _ ih =>
    intro st
    show (processLines (processLine st l) ls').content = _
    rw [ih (processLine st l), processLine_text_content st hlp]
    simp

/-- Claim C3 (amended): splitting a hidden-tag span across any number of
`Text` events yields the same final clean text as any other split of the same
span, because the loop accumulates the decoded payloads by concatenation
before `parseContent` filters the whole; the concrete scenario `0:"<thi"`
then `0:"nking>secret</thinking> visible"` yields clean output `"visible"`
(the filter's final trim drops the leading space), with no fragment of the
hidden content visible. -/
theorem hiddenSplitAccumulationInvariant :
    (∀ (st : StreamState) (ls₁ ls₂ ps qs : List (List Char)),
        List.Forall₂ TextLine ls₁ ps → List.Forall₂ TextLine ls₂ qs →
        ps.flatten = qs.flatten →
        (processLines st ls₁).content = (processLines st ls₂).content) ∧
      cleanContent (processLines emptyState
          [("0:\"<thi\"".toList),
           ("0:\"nking>secret</thinking> visible\"".toList)]).content =
        "visible".toList := by
  constructor
  · intro st ls₁ ls₂ ps qs h1 h2 hjoin
    rw [processLines_text_content h1 st, processLines_text_content h2 st, hjoin]
  · decide

/-- Claim C3 witness: the two-piece split of the scenario accumulates to the
same content as the unsplit span. -/
theorem hiddenSplitAccumulationInvariantWitness :
    (processLines emptyState
        [("0:\"<thi\"".toList),
         ("0:\"nking>secret</thinking> visible\"".toList)]).content =
      (processLines emptyState
        [("0:\"<thinking>secret</thinking> visible\"".toList)]).content :=
  hiddenSplitAccumulationInvariant.1 emptyState _ _
    [("<thi".toList), ("nking>secret</thinking> visible".toList)]
    [("<thinking>secret</thinking> visible".toList)]
    (List.Forall₂.cons ⟨by decide, by decide⟩
      (List.Forall₂.cons ⟨by decide, by decide⟩ List.Forall₂.nil))
    (List.Forall₂.cons ⟨by decide, by decide⟩ List.Forall₂.nil)
    (by decide)

theorem pushDescs_eq (v : JVal) :
    ∀ (tasks : List RTask) (seen : List (Option JVal)),
      pushDescs v (tasks, seen) =
        (tasks ++ (dedupF seen (descElems v)).map mkRecord,
         dedupSeen seen (descElems v)) := by
  induction v with
  | nullv => intro tasks seen; simp [pushDescs, descElems, dedupF, dedupSeen]
  | boolv b => intro tasks seen; simp [pushDescs, descElems, dedupF, dedupSeen]
  | numv l => intro tasks seen; simp [pushDescs, descElems, dedupF, dedupSeen]
  | strv s => intro tasks seen; simp [pushDescs, descElems, dedupF, dedupSeen]
  | arrNil => intro tasks seen; simp [pushDescs, descElems, dedupF, dedupSeen]
  | objNil => intro tasks seen; simp [pushDescs, descElems, dedupF, dedupSeen]
  | objCons k x r ihx ihr =>
    intro tasks seen; simp [pushDescs, descElems, dedupF, dedupSeen]
  | arrCons t rest iht ihrest =>
    intro tasks seen
    by_cases hn : t = JVal.nullv
    · simp [pushDescs, descElems, hn, dedupF, dedupSeen]
    · by_cases hk : descKey t ∈ seen
      · simp only [pushDescs, descElems, hn, if_false, hk, if_true,
          if_neg hn, if_pos hk, dedupF, dedupSeen]
        exact ihrest tasks seen
      · simp only [pushDescs, descElems, if_neg hn, if_neg hk, dedupF, dedupSeen]
        rw [ihrest (tasks ++ [mkRecord t]) (descKey t :: seen)]
        simp

theorem applyPlanPayload_eq (p : List Char) (tasks : List RTask)
    (seen : List (Option JVal)) :
    applyPlanPayload (tasks, seen) p =
      (tasks ++ (dedupF seen (payloadDescs p)).map mkRecord,
       dedupSeen seen (payloadDescs p)) := by
  simp only [applyPlanPayload, payloadDescs]
  cases jsonParse p with
  | none => simp [dedupF, dedupSeen]
  | some v => exact pushDescs_eq v tasks seen

theorem dedupF_append (xs : List JVal) :
    ∀ (seen : List (Option JVal)) (ys : List JVal),
      dedupF seen (xs ++ ys) = dedupF seen xs ++ dedupF (dedupSeen seen xs) ys := by
  induction xs with
  | nil => intro seen ys; simp [dedupF, dedupSeen]
  | cons d ds ih =>
    intro seen ys
    by_cases hk : descKey d ∈ seen
    · simp only [List.cons_append, dedupF, dedupSeen, if_pos hk, List.append_eq]
      exact ih seen ys
    · simp only [List.cons_append, dedupF, dedupSeen, if_neg hk, List.append_eq]
      rw [ih (descKey d :: seen) ys]

theorem dedupSeen_append (xs : List JVal) :
    ∀ (seen : List (Option JVal)) (ys : List JVal),
      dedupSeen seen (xs ++ ys) = dedupSeen (dedupSeen seen xs) ys := by
  induction xs with
  | nil => intro seen ys; simp [dedupSeen]
  | cons d ds ih =>
    intro seen ys
    by_cases hk : descKey d ∈ seen
    · simp only [List.cons_append, dedupSeen, if_pos hk, List.append_eq]
      exact ih seen ys
    · simp only [List.cons_append, dedupSeen, if_neg hk, List.append_eq]
      exact ih (descKey d :: seen) ys

theorem planPayloadFold_eq (ps : List (List Char)) :
    ∀ (tasks : List RTask) (seen : List (Option JVal)),
      ps.foldl applyPlanPayload (tasks, seen) =
        (tasks ++ (dedupF seen ((ps.map payloadDescs).flatten)).map mkRecord,
         dedupSeen seen ((ps.map payloadDescs).flatten)) := by
  induction ps with
  | nil => intro tasks seen; simp [dedupF, dedupSeen]
  | cons p ps ih =>
    intro tasks seen
    simp only [List.foldl_cons, List.map_cons, List.flatten_cons]
    rw [applyPlanPayload_eq, ih]
    rw [dedupF_append, dedupSeen_append]
    simp

theorem dedupF_keys_nodup (ds : List JVal) :
    ∀ (seen : List (Option JVal)),
      ((dedupF seen ds).map descKey).Nodup ∧
        ∀ k ∈ (dedupF seen ds).map descKey, k ∉ seen := by
  induction ds with
  | nil => intro seen; simp [dedupF]
  | cons d ds ih =>
    intro seen
    by_cases hk : descKey d ∈ seen
    · simpa [dedupF, hk] using ih seen
    · simp only [dedupF, if_neg hk, List.map_cons, List.nodup_cons]
      obtain ⟨ihn, ihm⟩ := ih (descKey d :: seen)
      refine ⟨⟨?_, ihn⟩, ?_⟩
      · intro hm
        exact (ihm _ hm) (List.mem_cons_self _ _)
      · intro k hkm
        simp only [List.mem_cons] at hkm
        rcases hkm with hkd | hkm
        · rw [hkd]; exact hk
        · intro hks
          exact (ihm k hkm) (List.mem_cons_of_mem _ hks)

theorem recKey_mkRecord (t : JVal) : recKey (mkRecord t) = descKey t := rfl

/-- Claim C6: plan-task de-duplication is first-occurrence-wins on the
identity key (`id` when truthy, else label): the record list equals the
first-occurrence subsequence of the descriptor stream (`PlanInit` payloads
then `PlanUpdate` payloads) turned into records, and the record keys are
pairwise distinct, so any later descriptor with a seen key is ignored and
insertion order of first occurrences is preserved. -/
theorem planDedupFirstWins (s : List Char) :
    planRecords s = (dedupF [] (descStream s)).map mkRecord ∧
      ((planRecords s).map recKey).Nodup := by
  have h : planRecords s = (dedupF [] (descStream s)).map mkRecord := by
    show (planFold s).1 = _
    rw [show planFold s =
        (markerPayloads planInitOpen s ++ markerPayloads planUpdateOpen s).foldl
          applyPlanPayload ([], []) from rfl]
    rw [planPayloadFold_eq]
    simp [descStream]
  refine ⟨h, ?_⟩
  rw [h, List.map_map]
  have hfun : recKey ∘ mkRecord = descKey := by
    funext t; exact recKey_mkRecord t
  rw [hfun]
  exact (dedupF_keys_nodup (descStream s) []).1

theorem stepRw_none_of_not_mem {o : Char} {os closeT : List Char}
    {mk : List Char → List Char} {s : List Char} (hx : o ∉ s) :
    ∀ c cs, (c :: cs) <:+ s → stepRw (o :: os) closeT mk (c :: cs) = none := by
  intro c cs hsuf
  have hc : c ∈ s := hsuf.subset (List.mem_cons_self _ _)
  have hne : c ≠ o := fun he => hx (he ▸ hc)
  simp [stepRw, isPrefixOf_false_head hne]

theorem runR_stepDel_id {openT closeT s : List Char} {o : Char} {os : List Char}
    (ho : openT = o :: os) (hx : o ∉ s) : runR (stepDel openT closeT) s = s := by
  subst ho
  exact runR_id_of_none fun c cs hsuf => stepRw_none_of_not_mem hx c cs hsuf

theorem runR_stepLit_id {tok out s : List Char} {o : Char} {os : List Char}
    (ho : tok = o :: os) (hx : o ∉ s) : runR (stepLit tok out) s = s := by
  subst ho
  refine runR_id_of_none fun c cs hsuf => ?_
  have hc : c ∈ s := hsuf.subset (List.mem_cons_self _ _)
  have hne : c ≠ o := fun he => hx (he ▸ hc)
  simp [stepLit, isPrefixOf_false_head hne]

theorem runR_stepRwCI_id {openT closeT s : List Char} {mk : List Char → List Char}
    {o : Char} {os : List Char} (ho : openT = o :: os) (hup : upAscii o = o)
    (hx : o ∉ s) : runR (stepRwCI openT closeT mk) s = s := by
  subst ho
  refine runR_id_of_none fun c cs hsuf => ?_
  have hc : c ∈ s := hsuf.subset (List.mem_cons_self _ _)
  have hne : c ≠ o := fun he => hx (he ▸ hc)
  have hne2 : c ≠ upAscii o := by rw [hup]; exact hne
  simp [stepRwCI, ciPrefixOf_false_head hne hne2]

theorem runR_stepTagUrl_id {tag s : List Char} {mk : List Char → List Char → List Char}
    (hx : '<' ∉ s) : runR (stepTagUrl tag mk) s = s := by
  refine runR_id_of_none fun c cs hsuf => ?_
  have hc : c ∈ s := hsuf.subset (List.mem_cons_self _ _)
  have hne : c ≠ '<' := fun he => hx (he ▸ hc)
  have hne2 : c ≠ upAscii '<' := by
    have : upAscii '<' = '<' := by decide
    rw [this]; exact hne
  simp [stepTagUrl, ciPrefixOf_false_head hne hne2]


theorem runR_backtick_id {s : List Char} (hx : '`' ∉ s) :
    runR stepBacktickPath s = s := by
  refine runR_id_of_none fun c cs hsuf => ?_
  have hc : c ∈ s := hsuf.subset (List.mem_cons_self _ _)
  have hne : ¬('`' = c) := fun he => hx (he ▸ hc)
  simp [stepBacktickPath, backtickRootAt, List.isPrefixOf, hne]


theorem splitNl_ne_nil : ∀ (s : List Char), splitNl s ≠ [] := by
  intro s
  induction s with
  | nil => simp [splitNl]
  | cons c cs ih =>
    by_cases h : c = '\n'
    · simp [splitNl, h]
    · simp only [splitNl, if_neg h]
      cases hs : splitNl cs with
      | nil => simp
      | cons l ls => simp

theorem splitNl_nl_cons (cs : List Char) : splitNl ('\n' :: cs) = [] :: splitNl cs := by
  simp [splitNl]

theorem mem_splitNl : ∀ {s : List Char} {l : List Char} {c : Char},
    l ∈ splitNl s → c ∈ l → c ∈ s := by
  intro s
  induction s with
  | nil =>
    intro l c hl hc
    simp only [splitNl, List.mem_singleton] at hl
    subst hl
    simp at hc
  | cons a cs ih =>
    intro l c hl hc
    by_cases h : a = '\n'
    · subst h
      rw [splitNl_nl_cons] at hl
      rcases List.mem_cons.mp hl with hl1 | hl2
      · subst hl1; simp at hc
      · exact List.mem_cons_of_mem _ (ih hl2 hc)
    · simp only [splitNl, if_neg h] at hl
      cases hL : splitNl cs with
      | nil => exact absurd hL (splitNl_ne_nil cs)
      | cons l0 ls0 =>
        rw [hL] at hl
        rcases List.mem_cons.mp hl with hl1 | hl2
        · subst hl1
          rcases List.mem_cons.mp hc with hc1 | hc2
          · exact hc1 ▸ List.mem_cons_self _ _
          · exact List.mem_cons_of_mem _ (ih (hL ▸ List.mem_cons_self _ _) hc2)
        · exact List.mem_cons_of_mem _ (ih (hL ▸ List.mem_cons_of_mem _ hl2) hc)

theorem isPathLine_head {l : List Char} (h : isPathLine l = true) :
    ∃ t, l = '/' :: t := by
  simp only [isPathLine, Bool.or_eq_true, isPathRoot, Bool.and_eq_true] at h
  rcases h with ((⟨hp, _⟩ | ⟨hp, _⟩) | ⟨hp, _⟩) | ⟨hp, _⟩
  · exact @isPrefixOf_head '/' ("Users/".toList) _ hp
  · exact @isPrefixOf_head '/' ("home/".toList) _ hp
  · exact @isPrefixOf_head '/' ("var/".toList) _ hp
  · exact @isPrefixOf_head '/' ("tmp/".toList) _ hp

theorem joinNl_splitNl : ∀ (s : List Char), joinNl (splitNl s) = s := by
  intro s
  induction s with
  | nil => rfl
  | cons c cs ih =>
    by_cases h : c = '\n'
    · subst h
      rw [splitNl_nl_cons]
      cases hL : splitNl cs with
      | nil => exact absurd hL (splitNl_ne_nil cs)
      | cons l0 ls0 =>
        rw [hL] at ih
        simp [joinNl, ih]
    · simp only [splitNl, if_neg h]
      cases hL : splitNl cs with
      | nil => exact absurd hL (splitNl_ne_nil cs)
      | cons l0 ls0 =>
        rw [hL] at ih
        cases ls0 with
        | nil => simpa [joinNl] using ih
        | cons x xs =>
          simp only [joinNl] at ih ⊢
          rw [List.cons_append, ih]

theorem stripPathLines_id {s : List Char} (hx : '/' ∉ s) :
    stripPathLines s = s := by
  unfold stripPathLines
  have hmap : (splitNl s).map (fun l => if isPathLine l then [] else l) = splitNl s := by
    have hcg : ∀ l ∈ splitNl s, (if isPathLine l then [] else l) = id l := by
      intro l hl
      have hnp : isPathLine l = false := by
        rw [Bool.eq_false_iff]
        intro hp
        obtain ⟨t, ht⟩ := isPathLine_head hp
        exact hx (mem_splitNl hl (ht ▸ List.mem_cons_self _ _))
      simp [hnp]
    rw [List.map_congr_left hcg, List.map_id]
  rw [hmap, joinNl_splitNl]

theorem hasNl3_tail {c : Char} {cs : List Char} (h : hasNl3 (c :: cs) = false) :
    hasNl3 cs = false := by
  cases cs with
  | nil => rfl
  | cons c2 cs2 =>
    cases cs2 with
    | nil => rfl
    | cons c3 cs3 =>
      simp only [hasNl3, Bool.or_eq_false_iff] at h
      exact h.2

theorem collapseGo_id : ∀ (k : Nat) (s : List Char), s.length ≤ k →
    hasNl3 s = false → collapseGo 0 s = s := by
  intro k
  induction k with
  | zero =>
    intro s hk _
    have : s = [] := List.length_eq_zero.mp (Nat.le_zero.mp hk)
    subst this; rfl
  | succ k ih =>
    intro s hk h3
    cases s with
    | nil => rfl
    | cons c cs =>
      simp only [List.length_cons] at hk
      by_cases hc : c = '\n'
      · subst hc
        cases cs with
        | nil => rfl
        | cons c2 cs2 =>
          simp only [List.length_cons] at hk
          by_cases hc2 : c2 = '\n'
          · subst hc2
            cases cs2 with
            | nil => rfl
            | cons c3 cs3 =>
              simp only [List.length_cons] at hk
              by_cases hc3 : c3 = '\n'
              · subst hc3
                simp [hasNl3] at h3
              · have e : collapseGo 0 ('\n' :: '\n' :: c3 :: cs3) =
                    '\n' :: '\n' :: c3 :: collapseGo 0 cs3 := by
                  simp [collapseGo, hc3]
                rw [e, ih cs3 (by omega)
                  (hasNl3_tail (hasNl3_tail (hasNl3_tail h3)))]
          · have e : collapseGo 0 ('\n' :: c2 :: cs2) =
                '\n' :: c2 :: collapseGo 0 cs2 := by
              simp [collapseGo, hc2]
            rw [e, ih cs2 (by omega) (hasNl3_tail (hasNl3_tail h3))]
      · have e : collapseGo 0 (c :: cs) = c :: collapseGo 0 cs := by
          simp [collapseGo, hc]
        rw [e, ih cs (by omega) (hasNl3_tail h3)]

theorem jsTrim_id {s : List Char}
    (h1 : (s.head?.all fun c => !isJsWs c) = true)
    (h2 : (s.getLast?.all fun c => !isJsWs c) = true) : jsTrim s = s := by
  unfold jsTrim
  have e1 : s.dropWhile isJsWs = s := by
    cases s with
    | nil => rfl
    | cons c cs =>
      simp only [List.head?, Option.all_some, Bool.not_eq_true'] at h1
      rw [List.dropWhile_cons_of_neg (by simp [h1])]
  rw [e1]
  have e2 : s.reverse.dropWhile isJsWs = s.reverse := by
    cases hrev : s.reverse with
    | nil => rfl
    | cons c cs =>
      have hlast : s.getLast? = some c := by
        rw [← List.head?_reverse, hrev]; rfl
      rw [hlast] at h2
      simp only [Option.all_some, Bool.not_eq_true'] at h2
      rw [List.dropWhile_cons_of_neg (by simp [h2])]
  rw [e2, List.reverse_reverse]

/-- Claim C8 (amended): full idempotence fails — see the counterexample,
where deleting an inner hidden span assembles a new hidden span from the
surrounding fragments — but the no-op half holds: on already-clean text,
meaning text with none of the filter's trigger characters, no triple newline
and no surrounding whitespace, the filter is the identity and hence
idempotent. -/
theorem filterCleanNoop (s : List Char)
    (h1 : '<' ∉ s) (h2 : '*' ∉ s) (h3 : '(' ∉ s) (h4 : '/' ∉ s) (h5 : '`' ∉ s)
    (h6 : hasNl3 s = false)
    (h7 : (s.head?.all fun c => !isJsWs c) = true)
    (h8 : (s.getLast?.all fun c => !isJsWs c) = true) :
    cleanContent s = s ∧ cleanContent (cleanContent s) = cleanContent s := by
  have hup : upAscii '<' = '<' := by decide
  have hid : cleanContent s = s := by
    simp only [cleanContent]
    rw [runR_stepDel_id (show planInitOpen = '<' :: "<<PlanInit:".toList from rfl) h1]
    rw [runR_stepDel_id (show planUpdateOpen = '<' :: "<<PlanUpdate:".toList from rfl) h1]
    rw [runR_stepDel_id (show stepStartOpen = '<' :: "<<StepStart:".toList from rfl) h1]
    rw [runR_stepDel_id (show stepEndOpen = '<' :: "<<StepEnd:".toList from rfl) h1]
    rw [runR_stepDel_id (show toolOpen = '*' :: "Running tool: ".toList from rfl) h2]
    rw [runR_stepLit_id (show "(no content)".toList = '(' :: "no content)".toList from rfl) h3]
    rw [runR_stepRwCI_id (show thinkOpen = '<' :: "thinking>".toList from rfl) hup h1]
    rw [runR_stepRwCI_id (show privOpen = '<' :: "private>".toList from rfl) hup h1]
    rw [runR_stepRwCI_id (show dbgOpen = '<' :: "debug>".toList from rfl) hup h1]
    rw [@runR_stepTagUrl_id ("citation".toList) s mkCitationUrl h1]
    rw [runR_stepRwCI_id (show citOpen = '<' :: "citation>".toList from rfl) hup h1]
    rw [runR_stepRwCI_id (show sumOpen = '<' :: "summary>".toList from rfl) hup h1]
    rw [@runR_stepTagUrl_id ("source".toList) s mkSourceUrl h1]
    rw [runR_stepRwCI_id (show srcOpen = '<' :: "source>".toList from rfl) hup h1]
    rw [stripPathLines_id h4]
    rw [show stripBacktickPaths s = s from runR_backtick_id h5]
    rw [show collapseNl s = s from collapseGo_id s.length s (le_refl _) h6]
    exact jsTrim_id h7 h8
  exact ⟨hid, by rw [hid, hid]⟩

/-- Claim C8 witness: the filter is a no-op, hence idempotent, on a concrete
clean text. -/
theorem filterCleanNoopWitness :
    cleanContent ("hello world".toList) = "hello world".toList ∧
      cleanContent (cleanContent ("hello world".toList)) =
        cleanContent ("hello world".toList) :=
  filterCleanNoop ("hello world".toList) (by decide) (by decide) (by decide)
    (by decide) (by decide) (by decide) (by decide) (by decide)


theorem splitNl_append : ∀ (x y : List Char),
    splitNl (x ++ y) =
      (splitNl x).dropLast ++
        List.modifyHead (fun l => last1 (splitNl x) ++ l) (splitNl y) := by
  intro x
  induction x with
  | nil =>
    intro y
    cases hY : splitNl y with
    | nil => exact absurd hY (splitNl_ne_nil y)
    | cons m0 ms0 =>
      simp only [List.nil_append, hY, List.modifyHead_cons]
      simp [splitNl, last1]
  | cons c cs ih =>
    intro y
    by_cases h : c = '\n'
    · subst h
      rw [List.cons_append, splitNl_nl_cons, splitNl_nl_cons, ih y]
      cases hL : splitNl cs with
      | nil => exact absurd hL (splitNl_ne_nil cs)
      | cons l0 ls0 =>
        simp only [List.dropLast_cons₂, last1, List.getLastD_cons, List.cons_append]
    · rw [List.cons_append]
      cases hL : splitNl cs with
      | nil => exact absurd hL (splitNl_ne_nil cs)
      | cons l0 ls0 =>
        have e1 : splitNl (c :: cs) = (c :: l0) :: ls0 := by
          simp only [splitNl, if_neg h, hL]
        have ih' := ih y
        rw [hL] at ih'
        cases hY : splitNl y with
        | nil => exact absurd hY (splitNl_ne_nil y)
        | cons m0 ms0 =>
          rw [hY] at ih'
          cases ls0 with
          | nil =>
            simp only [List.dropLast_single, List.nil_append, last1,
              List.getLastD_cons, List.getLastD_nil, List.modifyHead_cons] at ih'
            have e2 : splitNl (c :: (cs ++ y)) = (c :: (l0 ++ m0)) :: ms0 := by
              simp only [splitNl, if_neg h, ih']
            rw [e2, e1]
            simp [last1, List.modifyHead_cons]
          | cons z zs =>
            simp only [List.dropLast_cons₂, last1, List.getLastD_cons,
              List.modifyHead_cons, List.cons_append] at ih'
            have e2 : splitNl (c :: (cs ++ y)) =
                (c :: l0) :: ((z :: zs).dropLast ++ (List.getLastD zs z ++ m0) :: ms0) := by
              simp only [splitNl, if_neg h, ih']
            rw [e2, e1]
            simp [List.dropLast_cons₂, last1, List.getLastD_cons,
              List.modifyHead_cons, List.cons_append, List.getLast?_cons,
              List.getLastD_eq_getLast?]

theorem getLastD_mem : ∀ (L : List (List Char)) (d : List Char), L ≠ [] → L.getLastD d ∈ L := by
  intro L
  induction L with
  | nil => intro d h; simp at h
  | cons a l ih =>
    intro d _
    rw [List.getLastD_cons]
    cases l with
    | nil => simp
    | cons b bs => exact List.mem_cons_of_mem _ (ih a (by simp))

theorem splitNl_no_nl : ∀ (s : List Char), ∀ l ∈ splitNl s, '\n' ∉ l := by
  intro s
  induction s with
  | nil =>
    intro l hl
    simp only [splitNl, List.mem_singleton] at hl
    subst hl; simp
  | cons c cs ih =>
    intro l hl
    by_cases h : c = '\n'
    · subst h
      rw [splitNl_nl_cons] at hl
      rcases List.mem_cons.mp hl with h1 | h2
      · subst h1; simp
      · exact ih l h2
    · cases hL : splitNl cs with
      | nil => exact absurd hL (splitNl_ne_nil cs)
      | cons l0 ls0 =>
        rw [show splitNl (c :: cs) = (c :: l0) :: ls0 from by
          simp only [splitNl, if_neg h, hL]] at hl
        rcases List.mem_cons.mp hl with h1 | h2
        · subst h1
          intro hmem
          rcases List.mem_cons.mp hmem with he | hm
          · exact h he.symm
          · exact ih l0 (hL ▸ List.mem_cons_self _ _) hm
        · exact ih l (hL ▸ List.mem_cons_of_mem _ h2)

theorem splitNl_nlfree {w : List Char} (h : '\n' ∉ w) : splitNl w = [w] := by
  induction w with
  | nil => rfl
  | cons c cs ih =>
    have hc : c ≠ '\n' := fun he => h (he ▸ List.mem_cons_self _ _)
    have ih' := ih fun hm => h (List.mem_cons_of_mem _ hm)
    simp only [splitNl, if_neg hc, ih']

theorem last1_append {A M : List (List Char)} (h : M ≠ []) :
    last1 (A ++ M) = last1 M := by
  cases hM : M.getLast? with
  | none => exact absurd (List.getLast?_eq_none_iff.mp hM) h
  | some m =>
    simp [last1, List.getLastD_eq_getLast?, List.getLast?_append, hM]

theorem chunkLines_eq : ∀ (chunks : List (List Char)) (acc : List (List Char))
    (buf : List Char), '\n' ∉ buf →
    chunks.foldl pushChunk (acc, buf) =
      (acc ++ ((splitNl (buf ++ chunks.flatten)).dropLast.filter fun l => !isBlankL l),
       last1 (splitNl (buf ++ chunks.flatten))) := by
  intro chunks
  induction chunks with
  | nil =>
    intro acc buf hbuf
    simp [splitNl_nlfree hbuf, last1]
  | cons ch chunks ih =>
    intro acc buf hbuf
    simp only [List.foldl_cons, List.flatten_cons]
    rw [show pushChunk (acc, buf) ch =
        (acc ++ ((splitNl (buf ++ ch)).dropLast.filter fun l => !isBlankL l),
         last1 (splitNl (buf ++ ch))) from rfl]
    have hwnl : '\n' ∉ last1 (splitNl (buf ++ ch)) :=
      splitNl_no_nl _ _ (getLastD_mem _ _ (splitNl_ne_nil _))
    rw [ih _ _ hwnl]
    have hM : List.modifyHead (fun l => last1 (splitNl (buf ++ ch)) ++ l)
        (splitNl chunks.flatten) ≠ [] := by
      intro he
      have := congrArg List.length he
      rw [List.length_modifyHead] at this
      exact splitNl_ne_nil _ (List.length_eq_zero.mp (by simpa using this))
    have hw2 : splitNl (last1 (splitNl (buf ++ ch)) ++ chunks.flatten) =
        List.modifyHead (fun l => last1 (splitNl (buf ++ ch)) ++ l)
          (splitNl chunks.flatten) := by
      rw [splitNl_append, splitNl_nlfree hwnl]
      simp [last1]
    have hx : splitNl (buf ++ (ch ++ chunks.flatten)) =
        (splitNl (buf ++ ch)).dropLast ++
          List.modifyHead (fun l => last1 (splitNl (buf ++ ch)) ++ l)
            (splitNl chunks.flatten) := by
      rw [← List.append_assoc]
      exact splitNl_append _ _
    rw [hx, hw2]
    rw [List.dropLast_append_of_ne_nil _ hM, List.filter_append, last1_append hM]
    simp [List.append_assoc]

/-- Claim C2: feeding a newline-terminated frame stream through the line
buffer in arbitrary chunks yields exactly the ordered sequence of complete
non-blank lines that feeding the whole stream as one chunk yields: no line is
lost, duplicated or reordered. -/
theorem frameBufferChunkingInvariant (chunks : List (List Char))
    (_hnl : (chunks.flatten).getLast? = some '\n') :
    (chunkLines chunks).1 = (chunkLines [chunks.flatten]).1 := by
  unfold chunkLines
  rw [chunkLines_eq chunks [] [] (by simp), chunkLines_eq [chunks.flatten] [] [] (by simp)]
  simp

/-- Claim C2 witness: a concrete stream delivered in three odd chunks. -/
theorem frameBufferChunkingInvariantWitness :
    ("abc\nde\n\nfg\n".toList).getLast? = some '\n' ∧
      (chunkLines [("ab".toList), ("c\nde\n\nf".toList), ("g\n".toList)]).1 =
        (chunkLines [("abc\nde\n\nfg\n".toList)]).1 := by
  constructor
  · decide
  · have h := frameBufferChunkingInvariant
      [("ab".toList), ("c\nde\n\nf".toList), ("g\n".toList)] (by decide)
    simpa using h

theorem updStatus_id_label (rIds cIds rLbls cLbls : List JVal) (t : RTask) :
    (updStatus rIds cIds rLbls cLbls t).id = t.id ∧
      (updStatus rIds cIds rLbls cLbls t).label = t.label := by
  unfold updStatus
  split_ifs <;> exact ⟨rfl, rfl⟩

/-- Claim C7 (amended): step events never create, remove or reorder tasks
(the task identities of `parsePlan` are exactly those of the `PlanInit` /
`PlanUpdate` records); a task with a truthy id is resolved against the id
pools only and a task without one against the label pools only — but a
`StepStart` object contributes both its truthy `id` and its truthy
`description` to the respective pools, so an event whose id matches nothing
can still set an id-less task running through its description; a matching
completed-pool entry sets `completed` regardless of the running pools (and a
JSON `StepEnd` without an id contributes nothing). -/
theorem stepResolutionAmended :
    (∀ s : List Char, (parsePlan s).map (fun t => (t.id, t.label)) =
        (planRecords s).map fun t => (t.id, t.label)) ∧
    (∀ (rIds cIds rLbls cLbls rLbls' cLbls' : List JVal) (t : RTask),
        truthyO t.id = true →
        updStatus rIds cIds rLbls cLbls t = updStatus rIds cIds rLbls' cLbls' t) ∧
    (∀ (rIds cIds rIds' cIds' rLbls cLbls : List JVal) (t : RTask),
        truthyO t.id = false →
        updStatus rIds cIds rLbls cLbls t = updStatus rIds' cIds' rLbls cLbls t) ∧
    (∀ (rIds cIds rLbls cLbls : List JVal) (t : RTask),
        truthyO t.id = true → memSet t.id cIds = true →
        (updStatus rIds cIds rLbls cLbls t).status = JVal.strv ("completed".toList)) ∧
    (∀ (rIds cIds rLbls cLbls : List JVal) (t : RTask),
        truthyO t.id = false → memSet t.label cLbls = true →
        (updStatus rIds cIds rLbls cLbls t).status = JVal.strv ("completed".toList)) ∧
    (∀ (acc : List JVal × List JVal) (p : List Char) (v : JVal),
        p.head? = some '\x7b' → jsonParse p = some v →
        getField v ("id".toList) = none → applyStepEnd acc p = acc) := by
  refine ⟨?_, ?_, ?_, ?_, ?_, ?_⟩
  · intro s
    unfold parsePlan
    rw [List.map_map]
    refine List.map_congr_left fun t _ => ?_
    have h := updStatus_id_label (stepStartSets s).1 (stepEndSets s).1
      (stepStartSets s).2 (stepEndSets s).2 t
    simp [Function.comp, h.1, h.2]
  · intro rIds cIds rLbls cLbls rLbls' cLbls' t h
    simp [updStatus, h]
  · intro rIds cIds rIds' cIds' rLbls cLbls t h
    simp [updStatus, h]
  · intro rIds cIds rLbls cLbls t h1 h2
    simp [updStatus, h1, h2]
  · intro rIds cIds rLbls cLbls t h1 h2
    simp [updStatus, h1, h2]
  · intro acc p v hh hp hid
    have hid' : getField v ['i', 'd'] = none := hid
    simp [applyStepEnd, hh, hp, hid']

/-- Claim C7 witness: concrete instances of the amended behaviors. -/
theorem stepResolutionAmendedWitness :
    updStatus [] [JVal.strv ("t1".toList)] [] []
        { id := some (JVal.strv ("t1".toList)), label := some (JVal.strv ("d".toList)),
          status := JVal.strv ("pending".toList) } =
      updStatus [] [JVal.strv ("t1".toList)] [JVal.strv ("d".toList)] []
        { id := some (JVal.strv ("t1".toList)), label := some (JVal.strv ("d".toList)),
          status := JVal.strv ("pending".toList) } ∧
    (updStatus [JVal.strv ("t1".toList)] [JVal.strv ("t1".toList)] [] []
        { id := some (JVal.strv ("t1".toList)), label := some (JVal.strv ("d".toList)),
          status := JVal.strv ("pending".toList) }).status =
      JVal.strv ("completed".toList) ∧
    applyStepEnd ([], []) ("\x7b\"description\":\"foo\"\x7d".toList) = ([], []) := by
  refine ⟨?_, ?_, ?_⟩
  · exact stepResolutionAmended.2.1 _ _ _ _ _ _ _ (by decide)
  · exact stepResolutionAmended.2.2.2.1 _ _ _ _ _ (by decide) (by decide)
  · exact stepResolutionAmended.2.2.2.2.2 ([], [])
      ("\x7b\"description\":\"foo\"\x7d".toList)
      (JVal.objCons ("description".toList) (JVal.strv ("foo".toList)) JVal.objNil)
      (by decide) (by decide) (by decide)
theorem memSet_some {v : JVal} {set : List JVal} :
    memSet (some v) set = true ↔ v ∈ set := by
  simp [memSet, List.contains, List.elem_iff]

theorem splitAtTok_none_cons {tok : List Char} {c : Char} {cs : List Char}
    (h : splitAtTok tok (c :: cs) = none) :
    tok.isPrefixOf (c :: cs) = false ∧ splitAtTok tok cs = none := by
  by_cases hp : tok.isPrefixOf (c :: cs)
  · simp [splitAtTok, hp] at h
  · refine ⟨Bool.eq_false_iff.mpr hp, ?_⟩
    cases hs : splitAtTok tok cs with
    | none => rfl
    | some p =>
      obtain ⟨a, b⟩ := p
      simp [splitAtTok, hp, hs] at h

theorem splitAtTok_none_drop {tok : List Char} : ∀ {s : List Char},
    splitAtTok tok s = none → ∀ k, splitAtTok tok (s.drop k) = none := by
  intro s
  induction s with
  | nil => intro _ k; simp [splitAtTok]
  | cons c cs ih =>
    intro h k
    cases k with
    | zero => exact h
    | succ k' => exact ih (splitAtTok_none_cons h).2 k'

theorem isPrefixOf_append_left {tok l u : List Char} (h : tok.isPrefixOf l = true) :
    tok.isPrefixOf (l ++ u) = true :=
  List.isPrefixOf_iff_prefix.mpr
    ((List.isPrefixOf_iff_prefix.mp h).trans (List.prefix_append l u))

theorem isPrefixOf_of_append {tok l u : List Char} (hlen : tok.length ≤ l.length)
    (h : tok.isPrefixOf (l ++ u) = true) : tok.isPrefixOf l = true := by
  have hpre := List.isPrefixOf_iff_prefix.mp h
  rw [List.prefix_iff_eq_take] at hpre
  rw [List.take_append_of_le_length hlen] at hpre
  exact List.isPrefixOf_iff_prefix.mpr (List.prefix_iff_eq_take.mpr hpre)

theorem splitAtTok_some_append {tok : List Char} :
    ∀ {s u a b : List Char}, splitAtTok tok s = some (a, b) →
      splitAtTok tok (s ++ u) = some (a, b ++ u) := by
  intro s
  induction s with
  | nil => intro u a b h; simp [splitAtTok] at h
  | cons c cs ih =>
    intro u a b h
    by_cases hp : tok.isPrefixOf (c :: cs)
    · simp only [splitAtTok, if_pos hp] at h
      obtain ⟨ha, hb⟩ := Prod.mk.injEq .. ▸ Option.some.injEq .. ▸ h
      subst ha; subst hb
      have hlen : tok.length ≤ (c :: cs).length :=
        (List.isPrefixOf_iff_prefix.mp hp).length_le
      have hp' : tok.isPrefixOf (c :: (cs ++ u)) = true := by
        rw [← List.cons_append]
        exact isPrefixOf_append_left hp
      rw [List.cons_append]
      simp only [splitAtTok, if_pos hp']
      rw [show (c :: (cs ++ u)) = (c :: cs) ++ u from rfl]
      rw [List.drop_append_of_le_length hlen]
    · simp only [splitAtTok, if_neg hp] at h
      cases hs : splitAtTok tok cs with
      | none => rw [hs] at h; simp at h
      | some p =>
        obtain ⟨a', b'⟩ := p
        rw [hs] at h
        simp only [Option.some.injEq, Prod.mk.injEq] at h
        obtain ⟨ha, hb⟩ := h
        subst ha; subst hb
        have hlen : tok.length ≤ cs.length := by
          have he := congrArg List.length (splitAtTok_eq hs)
          simp only [List.length_append] at he
          omega
        have hp2 : tok.isPrefixOf (c :: (cs ++ u)) = false := by
          rw [Bool.eq_false_iff]
          intro hcon
          exact hp (isPrefixOf_of_append (by simp; omega)
            (by rw [List.cons_append]; exact hcon))
        rw [List.cons_append]
        simp only [splitAtTok, hp2, Bool.false_eq_true, if_false]
        rw [ih hs]

theorem runX_long_open {openT closeT s : List Char} (h : s.length < openT.length) :
    runX (stepCap openT closeT) s = [] := by
  refine runX_nil_of_none fun c cs hsuf => ?_
  have hlen : (c :: cs).length ≤ s.length := hsuf.length_le
  simp only [stepCap]
  rw [if_neg]
  intro hp
  have := (List.isPrefixOf_iff_prefix.mp hp).length_le
  omega

theorem runX_nil_of_no_close {openT closeT : List Char} {s : List Char}
    (h : splitAtTok closeT (s.drop openT.length) = none) :
    runX (stepCap openT closeT) s = [] := by
  refine runX_nil_of_none fun c cs hsuf => ?_
  simp only [stepCap]
  by_cases hp : openT.isPrefixOf (c :: cs)
  · rw [if_pos hp]
    obtain ⟨pre, hpre⟩ := hsuf
    have hdrop : c :: cs = s.drop pre.length := by
      rw [← hpre, List.drop_left]
    rw [hdrop, List.drop_drop]
    rw [Nat.add_comm, ← List.drop_drop]
    exact splitAtTok_none_drop h pre.length
  · rw [if_neg hp]

theorem runX_append_ext {openT closeT : List Char} (hc : closeT ≠ []) :
    ∀ (k : Nat) (s u : List Char), s.length ≤ k →
      ∃ d, runX (stepCap openT closeT) (s ++ u) =
        runX (stepCap openT closeT) s ++ d := by
  intro k
  induction k with
  | zero =>
    intro s u hk
    have : s = [] := List.length_eq_zero.mp (Nat.le_zero.mp hk)
    subst this
    exact ⟨runX (stepCap openT closeT) u, by simp [runX_nil]⟩
  | succ k ih =>
    intro s u hk
    cases s with
    | nil => exact ⟨runX (stepCap openT closeT) u, by simp [runX_nil]⟩
    | cons c cs =>
      simp only [List.length_cons] at hk
      cases hstep : stepCap openT closeT (c :: cs) with
      | some p =>
        obtain ⟨cap, rest⟩ := p
        have hp : openT.isPrefixOf (c :: cs) = true := by
          by_cases h : openT.isPrefixOf (c :: cs)
          · exact h
          · simp [stepCap, h] at hstep
        have hsp : splitAtTok closeT ((c :: cs).drop openT.length) = some (cap, rest) := by
          simpa [stepCap, hp] using hstep
        have hlen : openT.length ≤ (c :: cs).length :=
          (List.isPrefixOf_iff_prefix.mp hp).length_le
        have hstep2 : stepCap openT closeT (c :: (cs ++ u)) = some (cap, rest ++ u) := by
          have hp' : openT.isPrefixOf (c :: (cs ++ u)) = true := by
            rw [← List.cons_append]
            exact isPrefixOf_append_left hp
          have : (c :: (cs ++ u)).drop openT.length =
              (c :: cs).drop openT.length ++ u := by
            rw [show (c :: (cs ++ u)) = (c :: cs) ++ u from rfl]
            exact List.drop_append_of_le_length hlen
          simp only [stepCap, if_pos hp', this]
          exact splitAtTok_some_append hsp
        have hr := stepCap_shrinks hc _ _ _ hstep
        simp only [List.length_cons] at hr
        obtain ⟨d, hd⟩ := ih rest u (by omega)
        refine ⟨d, ?_⟩
        rw [List.cons_append, runX_cons_some (stepCap_shrinks hc) hstep2,
          runX_cons_some (stepCap_shrinks hc) hstep, hd]
        simp
      | none =>
        cases hstep2 : stepCap openT closeT (c :: (cs ++ u)) with
        | none =>
          obtain ⟨d, hd⟩ := ih cs u (by omega)
          refine ⟨d, ?_⟩
          rw [List.cons_append, runX_cons_none hstep2, runX_cons_none hstep, hd]
        | some p =>
          refine ⟨runX (stepCap openT closeT) ((c :: cs) ++ u), ?_⟩
          rw [show runX (stepCap openT closeT) (c :: cs) = [] from ?_]
          · simp
          · by_cases hp : openT.isPrefixOf (c :: cs)
            · have hsp : splitAtTok closeT ((c :: cs).drop openT.length) = none := by
                cases hsn : splitAtTok closeT ((c :: cs).drop openT.length) with
                | none => rfl
                | some q => simp [stepCap, hp, hsn] at hstep
              exact runX_nil_of_no_close hsp
            · have hlong : (c :: cs).length < openT.length := by
                by_contra hle
                push_neg at hle
                have hp' : openT.isPrefixOf ((c :: cs) ++ u) = true := by
                  by_cases hx : openT.isPrefixOf (c :: (cs ++ u))
                  · rw [List.cons_append]; exact hx
                  · simp [stepCap, List.cons_append, hx] at hstep2
                exact hp (isPrefixOf_of_append hle hp')
              exact runX_long_open hlong

theorem markerPayloads_append_ext (openT s u : List Char) :
    ∃ d, markerPayloads openT (s ++ u) = markerPayloads openT s ++ d := by
  obtain ⟨d, hd⟩ := @runX_append_ext openT markerClose
    (by decide) s.length s u (le_refl _)
  exact ⟨d.map jsTrim, by simp [markerPayloads, hd]⟩

theorem applyStepStart_grow (acc : List JVal × List JVal) (p : List Char) :
    (∀ x ∈ acc.1, x ∈ (applyStepStart acc p).1) ∧
      (∀ x ∈ acc.2, x ∈ (applyStepStart acc p).2) := by
  by_cases hh : p.head? = some '\x7b'
  · cases hj : jsonParse p with
    | none =>
      simp only [applyStepStart, if_pos hh, hj]
      exact ⟨fun x hx => hx, fun x hx => List.mem_cons_of_mem _ hx⟩
    | some v =>
      simp only [applyStepStart, if_pos hh, hj]
      constructor
      · intro x hx
        cases hgi : getField v ("id".toList) with
        | none => simpa [hgi] using hx
        | some i =>
          simp only [hgi]
          by_cases ht : truthy i = true
          · simp only [ht, if_true]
            exact List.mem_cons_of_mem _ hx
          · simp only [ht, Bool.false_eq_true, if_false]
            exact hx
      · intro x hx
        cases hgd : getField v ("description".toList) with
        | none => simpa [hgd] using hx
        | some d =>
          simp only [hgd]
          by_cases ht : truthy d = true
          · simp only [ht, if_true]
            exact List.mem_cons_of_mem _ hx
          · simp only [ht, Bool.false_eq_true, if_false]
            exact hx
  · simp only [applyStepStart, if_neg hh]
    exact ⟨fun x hx => hx, fun x hx => List.mem_cons_of_mem _ hx⟩

theorem applyStepEnd_grow (acc : List JVal × List JVal) (p : List Char) :
    (∀ x ∈ acc.1, x ∈ (applyStepEnd acc p).1) ∧
      (∀ x ∈ acc.2, x ∈ (applyStepEnd acc p).2) := by
  by_cases hh : p.head? = some '\x7b'
  · cases hj : jsonParse p with
    | none =>
      simp only [applyStepEnd, if_pos hh, hj]
      exact ⟨fun x hx => hx, fun x hx => List.mem_cons_of_mem _ hx⟩
    | some v =>
      simp only [applyStepEnd, if_pos hh, hj]
      cases hgi : getField v ("id".toList) with
      | none => exact ⟨fun x hx => hx, fun x hx => hx⟩
      | some i =>
        by_cases ht : truthy i = true
        · simp only [ht, if_true]
          exact ⟨fun x hx => List.mem_cons_of_mem _ hx, fun x hx => hx⟩
        · simp only [ht, Bool.false_eq_true, if_false]
          exact ⟨fun x hx => hx, fun x hx => hx⟩
  · simp only [applyStepEnd, if_neg hh]
    exact ⟨fun x hx => hx, fun x hx => List.mem_cons_of_mem _ hx⟩

theorem foldStart_grow (ps : List (List Char)) :
    ∀ acc : List JVal × List JVal,
      (∀ x ∈ acc.1, x ∈ (ps.foldl applyStepStart acc).1) ∧
        (∀ x ∈ acc.2, x ∈ (ps.foldl applyStepStart acc).2) := by
  induction ps with
  | nil => exact fun acc => ⟨fun x hx => hx, fun x hx => hx⟩
  | cons p ps ih =>
    intro acc
    simp only [List.foldl_cons]
    obtain ⟨h1, h2⟩ := applyStepStart_grow acc p
    obtain ⟨g1, g2⟩ := ih (applyStepStart acc p)
    exact ⟨fun x hx => g1 x (h1 x hx), fun x hx => g2 x (h2 x hx)⟩

theorem foldEnd_grow (ps : List (List Char)) :
    ∀ acc : List JVal × List JVal,
      (∀ x ∈ acc.1, x ∈ (ps.foldl applyStepEnd acc).1) ∧
        (∀ x ∈ acc.2, x ∈ (ps.foldl applyStepEnd acc).2) := by
  induction ps with
  | nil => exact fun acc => ⟨fun x hx => hx, fun x hx => hx⟩
  | cons p ps ih =>
    intro acc
    simp only [List.foldl_cons]
    obtain ⟨h1, h2⟩ := applyStepEnd_grow acc p
    obtain ⟨g1, g2⟩ := ih (applyStepEnd acc p)
    exact ⟨fun x hx => g1 x (h1 x hx), fun x hx => g2 x (h2 x hx)⟩

theorem stepStartSets_grow (s u : List Char) :
    (∀ x ∈ (stepStartSets s).1, x ∈ (stepStartSets (s ++ u)).1) ∧
      (∀ x ∈ (stepStartSets s).2, x ∈ (stepStartSets (s ++ u)).2) := by
  obtain ⟨d, hd⟩ := markerPayloads_append_ext stepStartOpen s u
  unfold stepStartSets
  rw [hd, List.foldl_append]
  exact foldStart_grow d _

theorem stepEndSets_grow (s u : List Char) :
    (∀ x ∈ (stepEndSets s).1, x ∈ (stepEndSets (s ++ u)).1) ∧
      (∀ x ∈ (stepEndSets s).2, x ∈ (stepEndSets (s ++ u)).2) := by
  obtain ⟨d, hd⟩ := markerPayloads_append_ext stepEndOpen s u
  unfold stepEndSets
  rw [hd, List.foldl_append]
  exact foldEnd_grow d _

/-- Claim C5 (amended): the non-decrease claim fails for tasks declared with
an explicit status (see the counterexample); what holds is: (i) for a task
whose declared status is the default `pending`, the status rank computed by
the update pass is non-decreasing as the running/completed pools grow; (ii) a
task found in its completed pool is `completed` no matter the running pools —
so a `StepStart` after a `StepEnd`-induced `Completed` does not change the
status, and a `StepEnd` with no preceding `StepStart` still yields
`Completed`; (iii) over one turn the pools only grow: every pool member at a
prefix of the accumulated text is a pool member at any extension. -/
theorem statusMonotoneAmended :
    (∀ (rIds cIds rLbls cLbls rIds' cIds' rLbls' cLbls' : List JVal) (t : RTask),
        t.status = JVal.strv ("pending".toList) →
        (∀ x ∈ rIds, x ∈ rIds') → (∀ x ∈ cIds, x ∈ cIds') →
        (∀ x ∈ rLbls, x ∈ rLbls') → (∀ x ∈ cLbls, x ∈ cLbls') →
        statusRank (updStatus rIds cIds rLbls cLbls t).status ≤
          statusRank (updStatus rIds' cIds' rLbls' cLbls' t).status) ∧
    (∀ (rIds cIds rLbls cLbls : List JVal) (t : RTask),
        (truthyO t.id = true ∧ memSet t.id cIds = true) ∨
          (truthyO t.id = false ∧ memSet t.label cLbls = true) →
        (updStatus rIds cIds rLbls cLbls t).status = JVal.strv ("completed".toList)) ∧
    (∀ s u : List Char,
        (∀ x ∈ (stepStartSets s).1, x ∈ (stepStartSets (s ++ u)).1) ∧
        (∀ x ∈ (stepStartSets s).2, x ∈ (stepStartSets (s ++ u)).2) ∧
        (∀ x ∈ (stepEndSets s).1, x ∈ (stepEndSets (s ++ u)).1) ∧
        (∀ x ∈ (stepEndSets s).2, x ∈ (stepEndSets (s ++ u)).2)) := by
  refine ⟨?_, ?_, ?_⟩
  · intro rIds cIds rLbls cLbls rIds' cIds' rLbls' cLbls' t hst hr hc hrl hcl
    have hpend : statusRank (JVal.strv ("pending".toList)) = 0 := by decide
    by_cases hid : truthyO t.id = true
    · obtain ⟨v, hv⟩ : ∃ v, t.id = some v := by
        cases hty : t.id with
        | none => rw [hty] at hid; simp [truthyO] at hid
        | some v => exact ⟨v, rfl⟩
      by_cases h1 : memSet t.id cIds = true
      · have h1' : memSet t.id cIds' = true := by
          rw [hv] at h1 ⊢
          exact memSet_some.mpr (hc _ (memSet_some.mp h1))
        simp [updStatus, hid, h1, h1']
      · by_cases h2 : memSet t.id rIds = true
        · have h2' : memSet t.id rIds' = true := by
            rw [hv] at h2 ⊢
            exact memSet_some.mpr (hr _ (memSet_some.mp h2))
          by_cases h1' : memSet t.id cIds' = true
          · simp [updStatus, hid, h1, h2, h1', statusRank]
          · simp [updStatus, hid, h1, h2, h1', h2', statusRank]
        · simp only [updStatus, hid, if_true, h1, h2, Bool.false_eq_true, if_false]
          rw [hst, hpend]
          exact Nat.zero_le _
    · simp only [Bool.not_eq_true] at hid
      obtain hlab : t.label = t.label := rfl
      by_cases h1 : memSet t.label cLbls = true
      · have h1' : memSet t.label cLbls' = true := by
          cases hty : t.label with
          | none => rw [hty] at h1; simp [memSet] at h1
          | some v =>
            rw [hty] at h1
            exact memSet_some.mpr (hcl _ (memSet_some.mp h1))
        simp [updStatus, hid, h1, h1']
      · by_cases h2 : memSet t.label rLbls = true
        · have h2' : memSet t.label rLbls' = true := by
            cases hty : t.label with
            | none => rw [hty] at h2; simp [memSet] at h2
            | some v =>
              rw [hty] at h2
              exact memSet_some.mpr (hrl _ (memSet_some.mp h2))
          by_cases h1' : memSet t.label cLbls' = true
          · simp [updStatus, hid, h1, h2, h1', statusRank]
          · simp [updStatus, hid, h1, h2, h1', h2', statusRank]
        · simp only [updStatus, hid, Bool.false_eq_true, if_false, h1, h2]
          rw [hst, hpend]
          exact Nat.zero_le _
  · intro rIds cIds rLbls cLbls t h
    rcases h with ⟨hid, hmem⟩ | ⟨hid, hmem⟩
    · simp [updStatus, hid, hmem]
    · simp [updStatus, hid, hmem]
  · intro s u
    obtain ⟨a1, a2⟩ := stepStartSets_grow s u
    obtain ⟨b1, b2⟩ := stepEndSets_grow s u
    exact ⟨a1, a2, b1, b2⟩

/-- Claim C5 witness: concrete instances of rank monotonicity, the
completed-pool priority, and pool growth over a concrete extension. -/
theorem statusMonotoneAmendedWitness :
    statusRank (updStatus [] [] [] []
        { id := some (JVal.strv ("t1".toList)), label := none,
          status := JVal.strv ("pending".toList) }).status ≤
      statusRank (updStatus [JVal.strv ("t1".toList)] [] [] []
        { id := some (JVal.strv ("t1".toList)), label := none,
          status := JVal.strv ("pending".toList) }).status ∧
    (updStatus [JVal.strv ("t1".toList)] [JVal.strv ("t1".toList)] [] []
        { id := some (JVal.strv ("t1".toList)), label := none,
          status := JVal.strv ("running".toList) }).status =
      JVal.strv ("completed".toList) ∧
    JVal.strv ("t1".toList) ∈
      (stepEndSets (("<<<StepEnd: \x7b\"id\":\"t1\"\x7d>>>".toList) ++
        ("<<<StepStart: \x7b\"id\":\"t1\"\x7d>>>".toList))).1 := by
  refine ⟨?_, ?_, ?_⟩
  · exact statusMonotoneAmended.1 [] [] [] [] [JVal.strv ("t1".toList)] [] [] [] _
      (by decide) (fun x hx => by simp at hx) (fun x hx => by simp at hx)
      (fun x hx => by simp at hx) (fun x hx => by simp at hx)
  · exact statusMonotoneAmended.2.1 _ _ _ _ _ (Or.inl ⟨by decide, by decide⟩)
  · exact (statusMonotoneAmended.2.2
        ("<<<StepEnd: \x7b\"id\":\"t1\"\x7d>>>".toList)
        ("<<<StepStart: \x7b\"id\":\"t1\"\x7d>>>".toList)).2.2.1
      (JVal.strv ("t1".toList)) (by decide)
theorem openHiddenAt_open (t : HTag) (rest : List Char) :
    openHiddenAt (openTok t ++ rest) = some (t, rest) := by
  cases t <;> simp [openHiddenAt, openTok, List.isPrefixOf]

theorem openHiddenAt_shrink {s : List Char} {t : HTag} {r : List Char}
    (h : openHiddenAt s = some (t, r)) : r.length < s.length := by
  unfold openHiddenAt at h
  split_ifs at h with h1 h2 h3
  · simp only [Option.some.injEq, Prod.mk.injEq] at h
    obtain ⟨-, hr⟩ := h
    subst hr
    have hlen : 10 ≤ s.length := by
      simpa using (List.isPrefixOf_iff_prefix.mp h1).length_le
    simp only [List.length_drop]
    omega
  · simp only [Option.some.injEq, Prod.mk.injEq] at h
    obtain ⟨-, hr⟩ := h
    subst hr
    have hlen : 9 ≤ s.length := by
      simpa using (List.isPrefixOf_iff_prefix.mp h2).length_le
    simp only [List.length_drop]
    omega
  · simp only [Option.some.injEq, Prod.mk.injEq] at h
    obtain ⟨-, hr⟩ := h
    subst hr
    have hlen : 7 ≤ s.length := by
      simpa using (List.isPrefixOf_iff_prefix.mp h3).length_le
    simp only [List.length_drop]
    omega

theorem scrubGo_fuel : ∀ (k : Nat) (s : List Char) (n m : Nat), s.length ≤ k →
    s.length ≤ n → s.length ≤ m → scrubGo n s = scrubGo m s := by
  intro k
  induction k with
  | zero =>
    intro s n m hk _ _
    have hnil : s = [] := List.length_eq_zero.mp (Nat.le_zero.mp hk)
    subst hnil
    cases n <;> cases m <;> simp [scrubGo]
  | succ k ih =>
    intro s n m hk hn hm
    cases s with
    | nil => cases n <;> cases m <;> simp [scrubGo]
    | cons c cs =>
      simp only [List.length_cons] at hk hn hm
      cases n with
      | zero => omega
      | succ n' =>
        cases m with
        | zero => omega
        | succ m' =>
          cases hstep : openHiddenAt (c :: cs) with
          | none =>
            simp only [scrubGo, hstep]
            rw [ih cs n' m' (by omega) (by omega) (by omega)]
          | some p =>
            obtain ⟨t, r⟩ := p
            have hr := openHiddenAt_shrink hstep
            simp only [List.length_cons] at hr
            cases hsp : splitAtTok (closeTok t) r with
            | none => simp [scrubGo, hstep, hsp]
            | some ab =>
              obtain ⟨a, after⟩ := ab
              have hb : after.length < r.length :=
                splitAtTok_length (by cases t <;> decide) hsp
              simp only [scrubGo, hstep, hsp]
              exact ih after n' m' (by omega) (by omega) (by omega)

theorem scrub_cons_none {c : Char} {cs : List Char}
    (h : openHiddenAt (c :: cs) = none) :
    hiddenScrub (c :: cs) = c :: hiddenScrub cs ∧
      endsInside (c :: cs) = endsInside cs := by
  unfold hiddenScrub endsInside
  simp only [List.length_cons, scrubGo, h]
  constructor <;> trivial

theorem scrub_cons_skip {c : Char} {cs r a after : List Char} {t : HTag}
    (h : openHiddenAt (c :: cs) = some (t, r))
    (hsp : splitAtTok (closeTok t) r = some (a, after)) :
    hiddenScrub (c :: cs) = hiddenScrub after ∧
      endsInside (c :: cs) = endsInside after := by
  have hr : r.length < (c :: cs).length := openHiddenAt_shrink h
  have hb : after.length < r.length := splitAtTok_length (by cases t <;> decide) hsp
  simp only [List.length_cons] at hr
  unfold hiddenScrub endsInside
  have e : scrubGo (c :: cs).length (c :: cs) = scrubGo cs.length after := by
    simp only [List.length_cons, scrubGo, h, hsp]
  rw [e, scrubGo_fuel after.length after cs.length after.length (le_refl _)
    (by omega) (le_refl _)]
  constructor <;> trivial

theorem scrub_cons_stop {c : Char} {cs r : List Char} {t : HTag}
    (h : openHiddenAt (c :: cs) = some (t, r))
    (hsp : splitAtTok (closeTok t) r = none) :
    hiddenScrub (c :: cs) = [] ∧ endsInside (c :: cs) = true := by
  unfold hiddenScrub endsInside
  simp only [List.length_cons, scrubGo, h, hsp]
  constructor <;> trivial

theorem isPrefixOf_two {x y : Char} {p s : List Char}
    (h : (x :: y :: p).isPrefixOf s = true) : ∃ q, s = x :: y :: q := by
  refine isPrefixOf_pair (x := x) (y := y) ?_
  exact List.isPrefixOf_iff_prefix.mpr
    (List.IsPrefix.trans ⟨p, rfl⟩ (List.isPrefixOf_iff_prefix.mp h))

theorem openHiddenAt_some_append {s : List Char} {t : HTag} {r : List Char} (u : List Char)
    (h : openHiddenAt s = some (t, r)) :
    openHiddenAt (s ++ u) = some (t, r ++ u) := by
  unfold openHiddenAt at h ⊢
  split_ifs at h with h1 h2 h3
  · simp only [Option.some.injEq, Prod.mk.injEq] at h
    obtain ⟨ht, hr⟩ := h
    subst ht; subst hr
    rw [if_pos (isPrefixOf_append_left h1)]
    have hlen : 10 ≤ s.length := by
      simpa using (List.isPrefixOf_iff_prefix.mp h1).length_le
    rw [List.drop_append_of_le_length hlen]
  · simp only [Option.some.injEq, Prod.mk.injEq] at h
    obtain ⟨ht, hr⟩ := h
    subst ht; subst hr
    obtain ⟨q, hq⟩ := isPrefixOf_two (show ('<' :: 'p' :: "rivate>".toList).isPrefixOf s = true from h2)
    have hn1 : (openTok HTag.thinkingT).isPrefixOf (s ++ u) = false := by
      subst hq; simp [openTok, List.isPrefixOf]
    rw [if_neg (by simp [hn1]), if_pos (isPrefixOf_append_left h2)]
    have hlen : 9 ≤ s.length := by
      simpa using (List.isPrefixOf_iff_prefix.mp h2).length_le
    rw [List.drop_append_of_le_length hlen]
  · simp only [Option.some.injEq, Prod.mk.injEq] at h
    obtain ⟨ht, hr⟩ := h
    subst ht; subst hr
    obtain ⟨q, hq⟩ := isPrefixOf_two (show ('<' :: 'd' :: "ebug>".toList).isPrefixOf s = true from h3)
    have hn1 : (openTok HTag.thinkingT).isPrefixOf (s ++ u) = false := by
      subst hq; simp [openTok, List.isPrefixOf]
    have hn2 : (openTok HTag.privateT).isPrefixOf (s ++ u) = false := by
      subst hq; simp [openTok, List.isPrefixOf]
    rw [if_neg (by simp [hn1]), if_neg (by simp [hn2]),
      if_pos (isPrefixOf_append_left h3)]
    have hlen : 7 ≤ s.length := by
      simpa using (List.isPrefixOf_iff_prefix.mp h3).length_le
    rw [List.drop_append_of_le_length hlen]

theorem no_straddle {tok : List Char} (htok : '<' ∉ tok.drop 1) {c : Char} {cs u : List Char}
    (hu : u.head? = some '<')
    (hp : tok.isPrefixOf ((c :: cs) ++ u) = true)
    (hn : tok.isPrefixOf (c :: cs) = false) : False := by
  by_cases hle : tok.length ≤ (c :: cs).length
  · exact absurd (isPrefixOf_of_append hle hp) (by simp [hn])
  · push_neg at hle
    have htake : tok = ((c :: cs) ++ u).take tok.length :=
      List.prefix_iff_eq_take.mp (List.isPrefixOf_iff_prefix.mp hp)
    rw [List.take_append_eq_append_take,
      List.take_of_length_le (Nat.le_of_lt hle)] at htake
    obtain ⟨u', rfl⟩ : ∃ u', u = '<' :: u' := by
      cases u with
      | nil => simp at hu
      | cons a b =>
        simp only [List.head?_cons, Option.some.injEq] at hu
        exact ⟨b, by rw [hu]⟩
    have hk : 1 ≤ tok.length - (c :: cs).length := by
      simp only [List.length_cons] at hle ⊢
      omega
    have hmem : '<' ∈ ('<' :: u').take (tok.length - (c :: cs).length) := by
      cases he : tok.length - (c :: cs).length with
      | zero => omega
      | succ j => simp [List.take]
    have hmem1 : '<' ∈ tok.drop 1 := by
      rw [htake]
      simp only [List.cons_append, List.drop_succ_cons, List.drop_zero]
      exact List.mem_append_right _ hmem
    exact htok hmem1

theorem openHiddenAt_none_append {c : Char} {cs u : List Char}
    (h : openHiddenAt (c :: cs) = none) (hu : u.head? = some '<') :
    openHiddenAt ((c :: cs) ++ u) = none := by
  unfold openHiddenAt at h ⊢
  split_ifs at h with h1 h2 h3
  split_ifs with g1 g2 g3
  · exact (no_straddle (by decide) hu g1 (Bool.eq_false_iff.mpr h1)).elim
  · exact (no_straddle (by decide) hu g2 (Bool.eq_false_iff.mpr h2)).elim
  · exact (no_straddle (by decide) hu g3 (Bool.eq_false_iff.mpr h3)).elim
  · rfl

theorem scrub_append : ∀ (k : Nat) (pre X : List Char), pre.length ≤ k →
    endsInside pre = false → X.head? = some '<' →
    hiddenScrub (pre ++ X) = hiddenScrub pre ++ hiddenScrub X ∧
      endsInside (pre ++ X) = endsInside X := by
  intro k
  induction k with
  | zero =>
    intro pre X hk _ _
    have hnil : pre = [] := List.length_eq_zero.mp (Nat.le_zero.mp hk)
    subst hnil
    simp [hiddenScrub, endsInside, scrubGo]
  | succ k ih =>
    intro pre X hk hout hX
    cases pre with
    | nil => simp [hiddenScrub, endsInside, scrubGo]
    | cons c cs =>
      cases hopen : openHiddenAt (c :: cs) with
      | none =>
        have hopen' : openHiddenAt (c :: (cs ++ X)) = none := by
          have := openHiddenAt_none_append hopen hX
          simpa using this
        obtain ⟨e1, e2⟩ := scrub_cons_none hopen
        obtain ⟨f1, f2⟩ := scrub_cons_none hopen'
        rw [e2] at hout
        have hcs : cs.length ≤ k := by
          simp only [List.length_cons] at hk; omega
        obtain ⟨g1, g2⟩ := ih cs X hcs hout hX
        constructor
        · rw [List.cons_append, f1, g1, e1, List.cons_append]
        · rw [List.cons_append, f2, g2]
      | some p =>
        obtain ⟨t, r⟩ := p
        have hopen' : openHiddenAt (c :: (cs ++ X)) = some (t, r ++ X) := by
          have := openHiddenAt_some_append X hopen
          simpa using this
        cases hsp : splitAtTok (closeTok t) r with
        | none =>
          obtain ⟨-, e2⟩ := scrub_cons_stop hopen hsp
          rw [e2] at hout
          simp at hout
        | some ab =>
          obtain ⟨a, after⟩ := ab
          have hsp' : splitAtTok (closeTok t) (r ++ X) = some (a, after ++ X) :=
            splitAtTok_some_append hsp
          obtain ⟨e1, e2⟩ := scrub_cons_skip hopen hsp
          obtain ⟨f1, f2⟩ := scrub_cons_skip hopen' hsp'
          rw [e2] at hout
          have hlen : after.length ≤ k := by
            have h1 : r.length < (c :: cs).length := openHiddenAt_shrink hopen
            have h2 : after.length < r.length :=
              splitAtTok_length (by cases t <;> decide) hsp
            simp only [List.length_cons] at h1 hk
            omega
          obtain ⟨g1, g2⟩ := ih after X hlen hout hX
          constructor
          · rw [List.cons_append, f1, g1, e1]
          · rw [List.cons_append, f2, g2]

theorem scrub_open_unterminated {t : HTag} {rest : List Char}
    (hrest : splitAtTok (closeTok t) rest = none) :
    hiddenScrub (openTok t ++ rest) = [] ∧ endsInside (openTok t ++ rest) = true := by
  obtain ⟨c, cs, hx⟩ : ∃ c cs, openTok t ++ rest = c :: cs := by
    cases t <;> exact ⟨_, _, rfl⟩
  have hopen : openHiddenAt (c :: cs) = some (t, rest) := by
    rw [← hx]; exact openHiddenAt_open t rest
  rw [hx]
  exact scrub_cons_stop hopen hrest

/-- Claim C1 (modelled from the spec: the streaming hidden-tag filter lives in
the backend `content_filter.py`, named at DataTable.tsx line 664 but not among
the sources; the frontend regexes of `cleanContent` are fallbacks that only
remove closed tag pairs): for every stream that ends while still inside an
open hidden tag — a prefix whose scan leaves the filter outside any hidden
tag, then an opening `<thinking>`, `<private>` or `<debug>` tag whose close
tag never occurs in the remainder — the clean visible output (after hidden-tag
deletion, display-tag rewriting and path stripping) equals the output on the
prefix alone: everything after the opening tag is discarded and never appears.
The prefix may itself contain completed hidden spans. -/
theorem tagFilterDiscardsUnterminated (pre rest : List Char) (t : HTag)
    (hpre : endsInside pre = false)
    (hrest : splitAtTok (closeTok t) rest = none) :
    tagFilterStream (pre ++ (openTok t ++ rest)) = tagFilterStream pre := by
  have hX : (openTok t ++ rest).head? = some '<' := by cases t <;> rfl
  obtain ⟨h1, -⟩ := scrub_append pre.length pre (openTok t ++ rest) (le_refl _) hpre hX
  obtain ⟨h2, -⟩ := scrub_open_unterminated hrest
  unfold tagFilterStream
  rw [h1, h2, List.append_nil]

/-- Claim C1 witness: the stream `be<thinking>a</thinking>ok<private>secret`
ends inside an open `private` tag after an earlier completed hidden span; the
filter output equals the output on the prefix `be<thinking>a</thinking>ok`,
namely `beok` — no fragment of `secret` survives. -/
theorem tagFilterDiscardsUnterminatedWitness :
    tagFilterStream (("be<thinking>a</thinking>ok".toList) ++
        (openTok HTag.privateT ++ ("secret".toList))) =
      tagFilterStream ("be<thinking>a</thinking>ok".toList) ∧
    tagFilterStream ("be<thinking>a</thinking>ok".toList) = "beok".toList :=
  ⟨tagFilterDiscardsUnterminated ("be<thinking>a</thinking>ok".toList)
      ("secret".toList) HTag.privateT (by decide) (by decide),
   by decide⟩
